import Mathlib

/-
  Verification development for the bfh schema/mapping library.

  The definitions below are a shallow embedding of the Python source:
    - bfh/common.py     (dedunder, NULLISH, nullish)
    - bfh/interfaces.py (HasFieldsMeta field discovery)
    - bfh/fields.py     (Field, Subschema, SimpleTypeField, BooleanField,
                         IntegerField, NumberField, UnicodeField, ObjectField,
                         ArrayField)
    - bfh/__init__.py   (Schema, GenericSchema)
    - bfh/transformations.py (Get, coercion nodes, Many, _many_items)

  Modelling conventions:
    - Python strings are lists of characters (Name); Python dicts are ordered
      association lists; tuples are merged with lists (the source always treats
      them together via isinstance(value, (list, tuple))).
    - Python floats are modelled as rationals; byte strings, datetime values
      and the DatetimeField / IsoDateString leaf adapters are outside the
      model (the spec declares primitive coercions and date handling opaque
      leaf adapters).
    - Schema instances carry their (already discovered) class, an association
      list from external field name to FieldSpec, plus the instance dictionary.
    - Exceptions are an Except monad with a structured error type; recursive
      runtime procedures that can descend through nested instances take an
      explicit fuel argument modelling the Python call stack, returning the
      distinguished error fuelOut on exhaustion.
-/

namespace BFH

/-- A Python identifier / string, as a list of characters. -/
abbrev Name := List Char

/-- First-match association-list lookup, modelling dict access. -/
def lookupA {α : Type} : List (Name × α) → Name → Option α
  | [], _ => Option.none
  | (k, v) :: rest, key => if k = key then some v else lookupA rest key

/-- Update-or-append write, modelling a Python dict assignment: the first
    binding of the key is replaced in place, otherwise the pair is appended. -/
def setA {α : Type} : List (Name × α) → Name → α → List (Name × α)
  | [], key, value => [(key, value)]
  | (k, v) :: rest, key, value =>
      if k = key then (key, value) :: rest else (k, v) :: setA rest key value

/-! ## dedunder: the reserved-name escaping convention (bfh/common.py)

  DUNDER_MATCH is the regex "_.+?__".  dedunder(name) applies
  DUNDER_MATCH.sub('', name) when the regex matches at the start of the name,
  and returns the name unchanged otherwise.  The functions below implement the
  exact scan-from-the-left, lazy, non-overlapping semantics of re.sub for this
  particular pattern over lists of characters. -/

/-- Scan for the first occurrence of two consecutive underscores and return
    the suffix after it (the lazy tail of a "_.+?__" match). -/
def dropAfterDU : List Char → Option (List Char)
  | [] => Option.none
  | [_] => Option.none
  | c1 :: c2 :: rest =>
      if c1 = '_' ∧ c2 = '_' then some rest else dropAfterDU (c2 :: rest)

/-- Given the characters following a leading underscore, try to complete a
    "_.+?__" match: consume at least one character (the lazy .+?) and then the
    earliest double underscore; returns the suffix after the whole match. -/
def completeDU : List Char → Option (List Char)
  | [] => Option.none
  | _ :: rest => dropAfterDU rest

theorem dropAfterDU_length : ∀ (s r : List Char), dropAfterDU s = some r →
    r.length + 2 ≤ s.length := by
  intro s
  induction s using dropAfterDU.induct with
  | case1 =>
      intro r h
      simp [dropAfterDU] at h
  | case2 c =>
      intro r h
      simp [dropAfterDU] at h
  | case3 c1 c2 rest hu =>
      intro r h
      simp [dropAfterDU, hu] at h
      subst h
      simp
  | case4 c1 c2 rest hu ih =>
      intro r h
      simp only [dropAfterDU, if_neg hu] at h
      have := ih r h
      simp at this ⊢
      omega

theorem completeDU_length : ∀ (s r : List Char), completeDU s = some r →
    r.length + 3 ≤ s.length := by
  intro s r h
  match s, h with
  | c :: rest, h =>
      have h' : dropAfterDU rest = some r := by simpa [completeDU] using h
      have := dropAfterDU_length rest r h'
      simp; omega

/-- One left-to-right pass of re.sub for the pattern "_.+?__": at each
    position, if an underscore starts a lazy match the whole match is removed
    and scanning resumes after it, otherwise the character is kept.  The fuel
    only bounds the recursion; every step consumes at least one character, so
    any fuel exceeding the length computes the same result. -/
def duSubGo : Nat → List Char → List Char
  | 0, s => s
  | fuel + 1, s =>
      match s with
      | [] => []
      | c :: rest =>
          if c = '_' then
            match completeDU rest with
            | some suffix => duSubGo fuel suffix
            | Option.none => c :: duSubGo fuel rest
          else
            c :: duSubGo fuel rest

/-- DUNDER_MATCH.sub('', s). -/
def duSub (s : List Char) : List Char :=
  duSubGo (s.length + 1) s

/-- Does DUNDER_MATCH match at position 0 (re.match semantics): the name
    starts with an underscore and the rest completes a lazy "_.+?__"? -/
def duMatch : List Char → Bool
  | c :: rest => c = '_' && (completeDU rest).isSome
  | [] => false

/-- dedunder from bfh/common.py: strip the Python privacy prefix, so that
    for instance the characters of "_Foo__my_attr" become those of "my_attr". -/
def dedunder (s : Name) : Name :=
  if duMatch s then duSub s else s

/-- Python str.startswith("__"). -/
def startsDU : Name → Bool
  | '_' :: '_' :: _ => true
  | _ => false

/-- Python str.strip("_"): drop leading and trailing underscores. -/
def stripUnderscores (s : Name) : Name :=
  ((s.dropWhile (fun c => c = '_')).reverse.dropWhile (fun c => c = '_')).reverse

/-! ## Field discovery (HasFieldsMeta in bfh/interfaces.py)

  The metaclass walks dir(new_class) - the alphabetically sorted list of all
  attribute names of the class and its bases (CPython documents that dir()
  sorts names) - keeps the attributes that are Field or Transformation
  instances, strips the privacy prefix from each name with dedunder, and
  records the result in _fields / _field_names while assigning each
  attribute's field_name.  The class namespace is modelled as an association
  list from internal attribute name to a flag saying whether the attribute is
  a field-like object (FieldInterface / TransformationInterface instance). -/

/-- Lexicographic comparison of names by character code point, as Python
    string comparison orders dir() output. -/
def lexLe : Name → Name → Bool
  | [], _ => true
  | _ :: _, [] => false
  | a :: as_, b :: bs =>
      if a.toNat < b.toNat then true
      else if a.toNat = b.toNat then lexLe as_ bs
      else false

/-- Insertion step of the sort used to model dir(). -/
def insertName (n : Name) : List Name → List Name
  | [] => [n]
  | m :: rest => if lexLe n m then n :: m :: rest else m :: insertName n rest

/-- Model of sorted() over attribute names. -/
def sortNames : List Name → List Name
  | [] => []
  | n :: rest => insertName n (sortNames rest)

/-- Merged class namespace: attributes declared on the class override the
    inherited ones; the remaining inherited attributes are kept. -/
def mergeNS (base own : List (Name × Bool)) : List (Name × Bool) :=
  own ++ base.filter (fun kv => (lookupA own kv.1).isNone)

/-- dir(new_class) over the modelled namespace. -/
def dirNames (ns : List (Name × Bool)) : List Name :=
  sortNames (ns.map Prod.fst)

/-- The discovery loop of HasFieldsMeta.__new__: for every name in dir order
    whose attribute is field-like, record the pair (internal name, external
    dedundered name); the external name is both appended to _field_names and
    assigned to the attribute's field_name. -/
def discoverPairs (ns : List (Name × Bool)) : List (Name × Name) :=
  (dirNames ns).filterMap (fun n =>
    match lookupA ns n with
    | some true => some (n, dedunder n)
    | _ => Option.none)

/-- The resulting _field_names list. -/
def discoverNames (ns : List (Name × Bool)) : List Name :=
  (discoverPairs ns).map Prod.snd

/-! ## The data model: field catalogue and runtime values (bfh/fields.py) -/

/-- Python primitive types used as isinstance targets by the simple fields
    and by typed ArrayFields. -/
inductive PyPrim where
  | pbool
  | pint
  | pfloat
  | pstr
deriving DecidableEq, Repr

/-- Scalar constants, used for Field defaults (the default argument of the
    Field constructor; callable factories are invoked to such constants
    per access and mutable-container defaults are not exercised here). -/
inductive Scalar where
  | snone
  | sbool (b : Bool)
  | sint (n : Int)
  | sfloat (q : Rat)
  | sstr (s : Name)
deriving DecidableEq, Repr

mutual
/-- One declared field, mirroring the field classes of bfh/fields.py.  The
    class of a schema is the discovered association list from external field
    name to FieldSpec, in _field_names order.  DatetimeField and IsoDateString
    are date-handling leaf adapters outside the model. -/
inductive FieldSpec where
  | boolF (required : Bool) (dflt : Scalar)
  | intF (required : Bool) (dflt : Scalar)
  | numF (required : Bool) (dflt : Scalar)
  | unicodeF (strict : Bool) (required : Bool) (dflt : Scalar)
  | objectF (required : Bool) (dflt : Scalar)
  | arrayF (elem : ArrayElem) (required : Bool) (dflt : Scalar)
  | subF (cls : List (Name × FieldSpec)) (required : Bool) (dflt : Scalar)

/-- The array_type of an ArrayField: absent, a primitive type, or a schema
    class. -/
inductive ArrayElem where
  | noneE
  | primE (p : PyPrim)
  | schemaE (cls : List (Name × FieldSpec))
end

/-- A discovered schema class. -/
abbrev SchemaClass := List (Name × FieldSpec)

/-- Runtime Python values.  vinst is a Schema instance carrying its class and
    its instance dictionary; vgen is a GenericSchema instance carrying its
    instance dictionary.  Lists and tuples are merged; floats are rationals;
    byte strings and datetimes are outside the model. -/
inductive Value where
  | vnone
  | vbool (b : Bool)
  | vint (n : Int)
  | vfloat (q : Rat)
  | vstr (s : Name)
  | vlist (xs : List Value)
  | vdict (kvs : List (Name × Value))
  | vinst (cls : SchemaClass) (store : List (Name × Value))
  | vgen (store : List (Name × Value))

/-- An instance dictionary. -/
abbrev Store := List (Name × Value)

/-- Promote a scalar constant to a runtime value. -/
def scalarToValue : Scalar → Value
  | .snone => .vnone
  | .sbool b => .vbool b
  | .sint n => .vint n
  | .sfloat q => .vfloat q
  | .sstr s => .vstr s

/-- The required flag of a field. -/
def FieldSpec.req : FieldSpec → Bool
  | .boolF r _ => r
  | .intF r _ => r
  | .numF r _ => r
  | .unicodeF _ r _ => r
  | .objectF r _ => r
  | .arrayF _ r _ => r
  | .subF _ r _ => r

/-- The default of a field. -/
def FieldSpec.dfltOf : FieldSpec → Scalar
  | .boolF _ d => d
  | .intF _ d => d
  | .numF _ d => d
  | .unicodeF _ _ d => d
  | .objectF _ d => d
  | .arrayF _ _ d => d
  | .subF _ _ d => d

/-- Identity test against Python None (the expression value is None). -/
def Value.isNone : Value → Bool
  | .vnone => true
  | _ => false

/-- Python isinstance against a primitive type.  Note that bool is a subtype
    of int in Python, so isinstance(True, int) holds. -/
def pyIsInstance (p : PyPrim) (v : Value) : Bool :=
  match p, v with
  | .pbool, .vbool _ => true
  | .pint, .vint _ => true
  | .pint, .vbool _ => true
  | .pfloat, .vfloat _ => true
  | .pstr, .vstr _ => true
  | _, _ => false

/-- Field.__get__ (bfh/fields.py): read the stored value from the instance
    dictionary; when it is absent or stored as None, materialize the default
    instead.  The write-back of the default is observationally irrelevant and
    not modelled. -/
def getattrF (store : Store) (k : Name) (fs : FieldSpec) : Value :=
  match lookupA store k with
  | some v => if v.isNone then scalarToValue fs.dfltOf else v
  | Option.none => scalarToValue fs.dfltOf

/-! ## nullish (bfh/common.py)

  NULLISH is the tuple (None, dict(), list(), tuple()).  nullish(value,
  implicit_nulls) consults is_empty when the value exposes it (Schema and
  GenericSchema instances), otherwise membership in NULLISH under Python
  equality; with implicit_nulls false it is just an identity test against
  None.  Schema.is_empty iterates the declared fields through the descriptor
  read; GenericSchema.is_empty iterates the instance dictionary. -/

/-- nullish on a scalar constant (no is_empty attribute, no container). -/
def nullishScalar : Scalar → Bool
  | .snone => true
  | _ => false

theorem lookupA_sizeOf {α : Type} [SizeOf α] :
    ∀ (l : List (Name × α)) (k : Name) (v : α), lookupA l k = some v →
      sizeOf v < sizeOf l := by
  intro l
  induction l with
  | nil => intro k v h; simp [lookupA] at h
  | cons kv rest ih =>
      intro k v h
      obtain ⟨k0, v0⟩ := kv
      by_cases hk : k0 = k
      · simp [lookupA, hk] at h
        subst h
        simp
        omega
      · simp [lookupA, hk] at h
        have := ih k v h
        simp
        omega

mutual
/-- Computable size of a value, used to supply recursion fuel: each
    constructor counts one plus its children, and an instance additionally
    counts its number of declared fields (its is_empty walks them). -/
def vsize : Value → Nat
  | .vnone => 1
  | .vbool _ => 1
  | .vint _ => 1
  | .vfloat _ => 1
  | .vstr _ => 1
  | .vlist xs => 1 + vsizeList xs
  | .vdict kvs => 1 + vsizeKVs kvs
  | .vinst cls store => 1 + cls.length + vsizeKVs store
  | .vgen store => 1 + vsizeKVs store

/-- Computable size of a list of values. -/
def vsizeList : List Value → Nat
  | [] => 0
  | x :: rest => 1 + vsize x + vsizeList rest

/-- Computable size of an association list of values. -/
def vsizeKVs : List (Name × Value) → Nat
  | [] => 0
  | (_, v) :: rest => 1 + vsize v + vsizeKVs rest
end

/-
  The fueled cores below model mutually recursive runtime procedures.  In
  every recursive call the fuel falls by exactly one while the size measure
  of the arguments (2 * vsize for nullish on a value, 2 * vsizeKVs of the
  store plus the class length for is_empty of an instance, and so on) falls
  by at least one, so a wrapper supplying fuel strictly above the measure
  never reaches the fuel-exhausted branch.
-/
mutual
/-- nullish from bfh/common.py (fueled core). -/
def nullishGoV : Nat → Bool → Value → Bool
  | 0, _, _ => false
  | fuel + 1, implicit, v =>
      match v with
      | .vnone => true
      | .vinst cls store => implicit && isEmptyInstGo fuel cls store
      | .vgen store => implicit && isEmptyGenGo fuel store
      | .vlist xs => implicit && xs.isEmpty
      | .vdict kvs => implicit && kvs.isEmpty
      | _ => false

/-- Schema.is_empty (fueled core): every declared field reads as nullish.
    The descriptor read getattrF is inlined so that the default path (a
    scalar constant) is checked by nullishScalar. -/
def isEmptyInstGo : Nat → SchemaClass → Store → Bool
  | 0, _, _ => false
  | fuel + 1, cls, store =>
      match cls with
      | [] => true
      | (k, fs) :: rest =>
          (match lookupA store k with
           | some v =>
               if v.isNone then nullishScalar fs.dfltOf
               else nullishGoV fuel true v
           | Option.none => nullishScalar fs.dfltOf)
          && isEmptyInstGo fuel rest store

/-- GenericSchema.is_empty (fueled core): every stored attribute value is
    nullish. -/
def isEmptyGenGo : Nat → Store → Bool
  | 0, _ => false
  | fuel + 1, store =>
      match store with
      | [] => true
      | (_, v) :: rest => nullishGoV fuel true v && isEmptyGenGo fuel rest
end

/-- nullish from bfh/common.py. -/
def nullishV (implicit : Bool) (v : Value) : Bool :=
  nullishGoV (2 * vsize v + 1) implicit v

/-- Schema.is_empty. -/
def isEmptyInst (cls : SchemaClass) (store : Store) : Bool :=
  isEmptyInstGo (2 * vsizeKVs store + cls.length + 1) cls store

/-- GenericSchema.is_empty. -/
def isEmptyGen (store : Store) : Bool :=
  isEmptyGenGo (2 * vsizeKVs store + 2) store

/-! ## Python equality over values

  Python compares booleans, integers and floats numerically (True == 1,
  1 == 1.0), strings by content, lists elementwise and dicts by key set plus
  per-key value equality.  Schema and GenericSchema instances define no
  custom equality, so they compare by object identity; two structurally
  distinct occurrences in the model are therefore unequal, and the claims
  below never compare instances. -/

/-- The numeric view of a value, when Python treats it as a number. -/
def numView : Value → Option Rat
  | .vbool b => some (if b then 1 else 0)
  | .vint n => some (n : Rat)
  | .vfloat q => some q
  | _ => Option.none

mutual
/-- Python equality of two values (fueled core; dicts compare by equal size
    and per-key equal values). -/
def pyEqGo : Nat → Value → Value → Bool
  | 0, _, _ => false
  | fuel + 1, a, b =>
      match numView a, numView b with
      | some x, some y => x = y
      | _, _ =>
          match a, b with
          | .vnone, .vnone => true
          | .vstr s, .vstr t => s = t
          | .vlist xs, .vlist ys => pyEqListGo fuel xs ys
          | .vdict d1, .vdict d2 =>
              (d1.length = d2.length : Bool) && pyEqDictGo fuel d1 d2
          | _, _ => false

/-- Python list equality (fueled core): same length, elementwise equal. -/
def pyEqListGo : Nat → List Value → List Value → Bool
  | 0, _, _ => false
  | fuel + 1, xs, ys =>
      match xs, ys with
      | [], [] => true
      | x :: xrest, y :: yrest => pyEqGo fuel x y && pyEqListGo fuel xrest yrest
      | _, _ => false

/-- The per-binding walk of Python dict equality (fueled core). -/
def pyEqDictGo : Nat → List (Name × Value) → List (Name × Value) → Bool
  | 0, _, _ => false
  | fuel + 1, d1, d2 =>
      match d1 with
      | [] => true
      | (k, v) :: rest =>
          (match lookupA d2 k with
           | some w => pyEqGo fuel v w
           | Option.none => false)
          && pyEqDictGo fuel rest d2
end

/-- Python equality of two values. -/
def pyEq (a b : Value) : Bool :=
  pyEqGo (vsize a + vsize b + 1) a b

/-- Python dict equality, the == used on serialized dicts. -/
def pyDictEq (d1 d2 : List (Name × Value)) : Bool :=
  pyEq (.vdict d1) (.vdict d2)

/-! ## Structural class equality

  isinstance(val, array_type) for a schema-typed ArrayField checks that the
  item is an instance of that schema class.  Classes are structural in the
  model, so the check is structural equality of the discovered class. -/

mutual
/-- Structural equality of field specifications. -/
def beqFS (a b : FieldSpec) : Bool :=
  match a, b with
  | .boolF r1 d1, .boolF r2 d2 => r1 = r2 && d1 = d2
  | .intF r1 d1, .intF r2 d2 => r1 = r2 && d1 = d2
  | .numF r1 d1, .numF r2 d2 => r1 = r2 && d1 = d2
  | .unicodeF s1 r1 d1, .unicodeF s2 r2 d2 => s1 = s2 && r1 = r2 && d1 = d2
  | .objectF r1 d1, .objectF r2 d2 => r1 = r2 && d1 = d2
  | .arrayF e1 r1 d1, .arrayF e2 r2 d2 => beqAE e1 e2 && r1 = r2 && d1 = d2
  | .subF c1 r1 d1, .subF c2 r2 d2 => beqCls c1 c2 && r1 = r2 && d1 = d2
  | _, _ => false

/-- Structural equality of array element types. -/
def beqAE (a b : ArrayElem) : Bool :=
  match a, b with
  | .noneE, .noneE => true
  | .primE p1, .primE p2 => p1 = p2
  | .schemaE c1, .schemaE c2 => beqCls c1 c2
  | _, _ => false

/-- Structural equality of schema classes. -/
def beqCls (a b : List (Name × FieldSpec)) : Bool :=
  match a, b with
  | [], [] => true
  | (k1, f1) :: r1, (k2, f2) :: r2 => k1 = k2 && beqFS f1 f2 && beqCls r1 r2
  | _, _ => false
end

/-! ## Errors

  Invalid (a TypeError subclass) and Missing (a KeyError/AttributeError
  subclass) from bfh/exceptions.py, together with the ordinary Python errors
  surfaced by the transformation engine, and the artificial fuelOut marking
  call-stack fuel exhaustion in the model. -/

/-- Rendering of a Python type in an error message. -/
inductive TyRepr where
  | tyBool
  | tyInt
  | tyFloat
  | tyStr
  | tyListTuple
  | tyDictSchema
  | tySchema (cls : SchemaClass)

/-- Structured errors. -/
inductive Err where
  | invalidRequired (field : Name)
  | invalidNotValid (field : Name) (v : Value) (t : TyRepr)
  | invalidNotStr (field : Name) (v : Value)
  | invalidNotA (v : Value) (t : TyRepr)
  | missingE (k : Name)
  | typeErr
  | valueErr
  | indexErr
  | fuelOut

/-- Is the error an Invalid (raised via the Invalid exception class)? -/
def Err.isInvalid : Err → Bool
  | .invalidRequired _ => true
  | .invalidNotValid _ _ _ => true
  | .invalidNotStr _ _ => true
  | .invalidNotA _ _ => true
  | _ => false

/-- Is the error a Missing? -/
def Err.isMissing : Err → Bool
  | .missingE _ => true
  | _ => false

/-- UnicodeField._coerce: unicode input passes through; byte strings are
    outside the model, so any other value lacks a decode method and raises
    Invalid (field_name: value is not a string). -/
def ucoerce (field : Name) (v : Value) : Except Err Name :=
  match v with
  | .vstr s => .ok s
  | _ => .error (.invalidNotStr field v)

/-- UnicodeField.serialize: try to coerce, and on Invalid return the value
    unchanged (serialization is not validation). -/
def unicodeSerialize (field : Name) (v : Value) : Value :=
  match ucoerce field v with
  | .ok s => .vstr s
  | .error _ => v

/-! ## Instance construction (Schema.__init__, bfh/__init__.py)

  Construction stores the raw kwargs under _raw_input, eagerly instantiates
  an empty nested instance for every Subschema field, and then assigns every
  keyword whose name - after stripping a leading double underscore - matches
  a declared field.  Attribute writes pass through Schema.__setattr__, which
  dedunders the name and then triggers the field descriptor's __set__ when
  the name is a declared field: Subschema.__set__ coerces dicts into nested
  instances and ArrayField.__set__ coerces dict items of schema-typed arrays.
  These procedures recurse through nested classes and take fuel. -/

/-- The name of the attribute holding the raw constructor input. -/
def rawInputName : Name := String.toList "_raw_input"

mutual
/-- Subschema.__set__ / ArrayField.__set__ / Field.__set__: the value
    actually stored for an assignment to a declared field. -/
def coerceSetF (fuel : Nat) (fs : FieldSpec) (v : Value) : Except Err Value :=
  match fuel with
  | 0 => .error .fuelOut
  | fuel + 1 =>
      match fs with
      | .subF cls _ _ =>
          match v with
          | .vdict kvs => do
              let store ← constructInstF fuel cls kvs
              pure (.vinst cls store)
          | other => pure other
      | .arrayF (.schemaE elemCls) _ _ =>
          match v with
          | .vlist xs => do
              let items ← coerceItemsF fuel elemCls xs
              pure (.vlist items)
          | other => pure other
      | _ => pure v

/-- The item loop of ArrayField.__set__ for a schema-typed array: dict items
    are constructed into instances of the element class, everything else is
    stored untouched. -/
def coerceItemsF (fuel : Nat) (elemCls : SchemaClass) (xs : List Value) :
    Except Err (List Value) :=
  match fuel with
  | 0 => .error .fuelOut
  | fuel + 1 =>
      match xs with
      | [] => pure []
      | i :: rest => do
          let i' ← (match i with
            | .vdict kvs => do
                let store ← constructInstF fuel elemCls kvs
                pure (Value.vinst elemCls store)
            | other => pure other)
          let rest' ← coerceItemsF fuel elemCls rest
          pure (i' :: rest')

/-- Schema.__setattr__ followed by the descriptor write: dedunder the name,
    coerce the value when the name is a declared field, and store. -/
def setattrVF (fuel : Nat) (cls : SchemaClass) (store : Store) (name : Name)
    (v : Value) : Except Err Store :=
  match fuel with
  | 0 => .error .fuelOut
  | fuel + 1 =>
      let n := dedunder name
      match lookupA cls n with
      | some fs => do
          let w ← coerceSetF fuel fs v
          pure (setA store n w)
      | Option.none => pure (setA store n v)

/-- Schema.__init__ over a kwargs dict. -/
def constructInstF (fuel : Nat) (cls : SchemaClass)
    (kwargs : List (Name × Value)) : Except Err Store :=
  match fuel with
  | 0 => .error .fuelOut
  | fuel + 1 => do
      let s0 : Store := [(rawInputName, .vdict kwargs)]
      let s1 ← initSubsF fuel cls cls s0
      applyKwargsF fuel cls s1 kwargs

/-- The loop creating an empty nested instance for every Subschema field
    before keyword values are applied. -/
def initSubsF (fuel : Nat) (cls : SchemaClass) (todo : SchemaClass)
    (store : Store) : Except Err Store :=
  match fuel with
  | 0 => .error .fuelOut
  | fuel + 1 =>
      match todo with
      | [] => pure store
      | (k, .subF subCls r d) :: rest => do
          let sub ← constructInstF fuel subCls []
          let store' ← setattrVF fuel cls store k (.vinst subCls sub)
          initSubsF fuel cls rest store'
      | _ :: rest => initSubsF fuel cls rest store

/-- The keyword loop of Schema.__init__: names starting with a double
    underscore are stripped of their underscores, and names matching a
    declared field are assigned through setattr. -/
def applyKwargsF (fuel : Nat) (cls : SchemaClass) (store : Store)
    (kwargs : List (Name × Value)) : Except Err Store :=
  match fuel with
  | 0 => .error .fuelOut
  | fuel + 1 =>
      match kwargs with
      | [] => pure store
      | (k, v) :: rest => do
          let k1 := if startsDU k then stripUnderscores k else k
          let store' ←
            if (lookupA cls k1).isSome then setattrVF fuel cls store k1 v
            else pure store
          applyKwargsF fuel cls store' rest
end

/-! ## Serialization (Schema.serialize, GenericSchema.serialize, field
    serializers)

  Schema.serialize walks _field_names in order; for each field it reads the
  value through the descriptor, applies the field's serialize, then - if the
  result itself exposes a serialize capability - serializes it, and finally
  drops the key when implicit_nulls is set and the value is nullish.  The
  descriptor read getattrF corresponds to declared fields whose class
  dictionary key equals their field name (always the case for plainly named
  fields; an escaped field reads through the instance dictionary, which
  coincides with getattrF whenever the field has been assigned). -/

mutual
/-- A value.serialize(implicit_nulls) call guarded by hasattr(value,
    "serialize"): Schema and GenericSchema instances serialize to dicts,
    everything else passes through. -/
def serializeValF (fuel : Nat) (implicit : Bool) (v : Value) :
    Except Err Value :=
  match fuel with
  | 0 => .error .fuelOut
  | fuel + 1 =>
      match v with
      | .vinst c s => (serializeInstF fuel implicit c s).map Value.vdict
      | .vgen s => (serializeGenF fuel implicit s).map Value.vdict
      | other => pure other

/-- The serialize method of one field applied to the fetched value:
    Field.serialize is the identity (simple typed fields), UnicodeField
    coerces and falls back to the raw value on Invalid, ObjectField and
    Subschema recursively serialize and collapse all-nullish dicts when
    implicit_nulls is set, ArrayField flattens and filters list items. -/
def fieldSerializeF (fuel : Nat) (implicit : Bool) (field : Name)
    (fs : FieldSpec) (v : Value) : Except Err Value :=
  match fuel with
  | 0 => .error .fuelOut
  | fuel + 1 =>
      match fs with
      | .boolF _ _ => pure v
      | .intF _ _ => pure v
      | .numF _ _ => pure v
      | .unicodeF _ _ _ => pure (unicodeSerialize field v)
      | .objectF _ _ => do
          let w ← serializeValF fuel implicit v
          let w := if w.isNone then Value.vdict [] else w
          match w with
          | .vdict kvs =>
              if implicit && kvs.all (fun kv => nullishV true kv.2) then
                pure (.vdict [])
              else pure (.vdict kvs)
          | other => pure other
      | .subF _ _ _ => do
          let w ← serializeValF fuel implicit v
          let w := if w.isNone then Value.vdict [] else w
          match w with
          | .vdict kvs =>
              if implicit && kvs.all (fun kv => nullishV true kv.2) then
                pure (.vdict [])
              else pure (.vdict kvs)
          | other => pure other
      | .arrayF _ _ _ =>
          match v with
          | .vlist xs => do
              let items ← arrayFlattenF fuel implicit xs
              pure (.vlist items)
          | other => pure other

/-- The item loop of ArrayField.serialize: flatten each item (serializing
    those exposing serialize) and drop nullish flattened items. -/
def arrayFlattenF (fuel : Nat) (implicit : Bool) (xs : List Value) :
    Except Err (List Value) :=
  match fuel with
  | 0 => .error .fuelOut
  | fuel + 1 =>
      match xs with
      | [] => pure []
      | i :: rest => do
          let flat ← serializeValF fuel implicit i
          let rest' ← arrayFlattenF fuel implicit rest
          pure (if nullishV implicit flat then rest' else flat :: rest')

/-- Schema.serialize over the declared fields, in registration order. -/
def serializeInstF (fuel : Nat) (implicit : Bool) (cls : SchemaClass)
    (store : Store) : Except Err (List (Name × Value)) :=
  match fuel with
  | 0 => .error .fuelOut
  | fuel + 1 =>
      match cls with
      | [] => pure []
      | (k, fs) :: rest => do
          let v := getattrF store k fs
          let w ← fieldSerializeF fuel implicit k fs v
          let w ← serializeValF fuel implicit w
          let rest' ← serializeInstF fuel implicit rest store
          pure (if implicit && nullishV implicit w then rest'
                else (k, w) :: rest')

/-- GenericSchema.serialize over the instance dictionary. -/
def serializeGenF (fuel : Nat) (implicit : Bool) (store : Store) :
    Except Err (List (Name × Value)) :=
  match fuel with
  | 0 => .error .fuelOut
  | fuel + 1 =>
      match store with
      | [] => pure []
      | (k, v) :: rest => do
          let w ← genValueF fuel implicit v
          let rest' ← serializeGenF fuel implicit rest
          pure (if implicit && nullishV implicit w then rest'
                else (k, w) :: rest')

/-- GenericSchema._serialize_value: serialize a serializable value, recurse
    through lists dropping nullish serialized items, and turn a nullish
    result into None under implicit_nulls. -/
def genValueF (fuel : Nat) (implicit : Bool) (v : Value) : Except Err Value :=
  match fuel with
  | 0 => .error .fuelOut
  | fuel + 1 => do
      let w ← serializeValF fuel implicit v
      let w ← (match w with
        | .vlist xs => (genListF fuel implicit xs).map Value.vlist
        | other => pure other)
      pure (if implicit && nullishV implicit w then Value.vnone else w)

/-- The list loop of GenericSchema._serialize_value. -/
def genListF (fuel : Nat) (implicit : Bool) (xs : List Value) :
    Except Err (List Value) :=
  match fuel with
  | 0 => .error .fuelOut
  | fuel + 1 =>
      match xs with
      | [] => pure []
      | i :: rest => do
          let s ← genValueF fuel implicit i
          let rest' ← genListF fuel implicit rest
          pure (if nullishV implicit s then rest' else s :: rest')
end

/-! ## Validation (Schema.validate and the field validators) -/

/-- Field.validate: when required and the value is None, raise Invalid
    (field: a value is required). -/
def requiredCheckF (field : Name) (required : Bool) (v : Value) :
    Except Err Bool :=
  if required && v.isNone then .error (.invalidRequired field) else .ok true

/-- SimpleTypeField.validate, with the isinstance result precomputed by the
    caller: the Field required check, then _valid, raising Invalid
    (field: value is not a valid type) on failure. -/
def simpleValidateF (field : Name) (required : Bool) (ty : TyRepr)
    (instP : Bool) (v : Value) : Except Err Bool := do
  let _ ← requiredCheckF field required v
  if (v.isNone && !required) || instP then pure true
  else .error (.invalidNotValid field v ty)

/-- isinstance(value, (dict, SchemaInterface)), the ObjectField type. -/
def isDictOrSchema : Value → Bool
  | .vdict _ => true
  | .vinst _ _ => true
  | .vgen _ => true
  | _ => false

/-- isinstance(value, (list, tuple)), the ArrayField type. -/
def isListV : Value → Bool
  | .vlist _ => true
  | _ => false

/-- Python equality with the empty list or empty tuple. -/
def isEmptyListV : Value → Bool
  | .vlist [] => true
  | _ => false

/-- getattr(value, "is_empty", False). -/
def isEmptyAttr : Value → Bool
  | .vinst c s => isEmptyInst c s
  | .vgen s => isEmptyGen s
  | _ => false

/-- The rendered type of a primitive isinstance target. -/
def tyOfPrim : PyPrim → TyRepr
  | .pbool => .tyBool
  | .pint => .tyInt
  | .pfloat => .tyFloat
  | .pstr => .tyStr

/-- The item loop of ArrayField.validate for a primitive element type: every
    item must be an instance of the element type. -/
def primItemsCheck (p : PyPrim) : List Value → Except Err Bool
  | [] => pure true
  | val :: rest =>
      if pyIsInstance p val then primItemsCheck p rest
      else .error (.invalidNotA val (tyOfPrim p))

mutual
/-- Schema.validate: all([field.validate(getattr(self, name)) for ...]); the
    comprehension runs every validator in declaration order and the first
    raised exception propagates. -/
def validateInstF (fuel : Nat) (cls : SchemaClass) (store : Store) :
    Except Err Bool :=
  match fuel with
  | 0 => .error .fuelOut
  | fuel + 1 => do
      let bs ← validateFieldsF fuel cls store
      pure (bs.all id)

/-- The comprehension of Schema.validate. -/
def validateFieldsF (fuel : Nat) (cls : SchemaClass) (store : Store) :
    Except Err (List Bool) :=
  match fuel with
  | 0 => .error .fuelOut
  | fuel + 1 =>
      match cls with
      | [] => pure []
      | (k, fs) :: rest => do
          let b ← fieldValidateF fuel k fs (getattrF store k fs)
          let bs ← validateFieldsF fuel rest store
          pure (b :: bs)

/-- field.validate(value) for each field class of bfh/fields.py. -/
def fieldValidateF (fuel : Nat) (field : Name) (fs : FieldSpec) (v : Value) :
    Except Err Bool :=
  match fuel with
  | 0 => .error .fuelOut
  | fuel + 1 =>
      match fs with
      | .boolF r _ => simpleValidateF field r .tyBool (pyIsInstance .pbool v) v
      | .intF r _ => simpleValidateF field r .tyInt (pyIsInstance .pint v) v
      | .numF r _ => simpleValidateF field r .tyFloat (pyIsInstance .pfloat v) v
      | .unicodeF strict r _ =>
          if strict || (v.isNone && !r) then
            simpleValidateF field r .tyStr (pyIsInstance .pstr v) v
          else do
            let s ← ucoerce field v
            simpleValidateF field r .tyStr (pyIsInstance .pstr (.vstr s))
              (.vstr s)
      | .objectF r _ => do
          let _ ← simpleValidateF field r .tyDictSchema (isDictOrSchema v) v
          match v with
          | .vinst c s => do
              let _ ← validateInstF fuel c s
              pure true
          | _ => pure true
      | .subF cls r _ => do
          let _ ← requiredCheckF field r v
          if !r && nullishV true v then pure true
          else if !r && isEmptyAttr v then pure true
          else
            match v with
            | .vinst c s => do
                let _ ← validateInstF fuel c s
                pure true
            | .vgen _ => pure true
            | .vdict kvs => do
                let st ← constructInstF fuel cls kvs
                let _ ← validateInstF fuel cls st
                pure true
            | _ => do
                let st ← constructInstF fuel cls []
                let _ ← validateInstF fuel cls st
                pure true
      | .arrayF elem r _ => do
          let _ ← simpleValidateF field r .tyListTuple (isListV v) v
          if !r && (v.isNone || isEmptyListV v) then pure true
          else
            match elem with
            | .noneE => .error .typeErr
            | .schemaE ec =>
                (match v with
                 | .vlist (val :: _) =>
                     -- the loop body returns during its first iteration, so
                     -- only the first item is ever examined
                     match val with
                     | .vinst c s =>
                         if beqCls c ec then validateInstF fuel c s
                         else .error (.invalidNotA val (.tySchema ec))
                     | .vgen _ => .error (.invalidNotA val (.tySchema ec))
                     | .vdict kvs => do
                         let st ← constructInstF fuel ec kvs
                         validateInstF fuel ec st
                     | _ => do
                         let st ← constructInstF fuel ec []
                         validateInstF fuel ec st
                 | _ => pure true)
            | .primE p =>
                (match v with
                 | .vlist xs => primItemsCheck p xs
                 | _ => pure true)
end

/-! ## The transformation engine (bfh/transformations.py)

  Get walks its path segments through the source: dict-style lookup when the
  current value is a dict, attribute-style lookup otherwise.  A missing step
  raises Missing when required (the KeyError or AttributeError is caught and
  re-raised as Missing) and otherwise yields None; walking continues into the
  result even after a missing step.  Attribute lookup on a Schema instance
  first consults the declared fields (the descriptors), then the instance
  dictionary, and finally retries through Schema.__getattr__ with the
  dedundered name.  Attribute lookup on a GenericSchema never fails: its
  __getattr__ returns self.__dict__.get(name), so an unknown attribute reads
  as None even when the Get is required.  Built-in object attributes (such as
  __class__) are outside the model. -/

/-- object.__getattribute__ on a Schema instance followed by the
    Schema.__getattr__ fallback, as an optional value. -/
def instanceGetattrOpt (cls : SchemaClass) (store : Store) (n : Name) :
    Option Value :=
  match lookupA cls n with
  | some fs => some (getattrF store n fs)
  | Option.none =>
      match lookupA store n with
      | some v => some v
      | Option.none =>
          let n' := dedunder n
          match lookupA cls n' with
          | some fs => some (getattrF store n' fs)
          | Option.none => lookupA store n'

/-- One step of Get: the _get helper applied to one path segment. -/
def getStep (required : Bool) (source : Value) (seg : Name) :
    Except Err Value :=
  match source with
  | .vdict kvs =>
      if required then
        match lookupA kvs seg with
        | some v => .ok v
        | Option.none => .error (.missingE seg)
      else .ok ((lookupA kvs seg).getD .vnone)
  | .vgen store => .ok ((lookupA store seg).getD .vnone)
  | .vinst cls store =>
      match instanceGetattrOpt cls store seg with
      | some v => .ok v
      | Option.none =>
          if required then .error (.missingE seg) else .ok .vnone
  | _ => if required then .error (.missingE seg) else .ok .vnone

/-- Get.function: walk every path segment in order; recursion continues into
    the fetched value while segments remain. -/
def getPath (required : Bool) (source : Value) : List Name → Except Err Value
  | [] => .error .indexErr
  | [seg] => getStep required source seg
  | seg :: rest => do
      let got ← getStep required source seg
      getPath required got rest

/-! ### Coercion nodes (Int, Num, Str, Bool) and Many -/

/-- The four coercion node classes; Many receives such a class as its
    subtrans argument and instantiates it per item. -/
inductive CoerceK where
  | ckInt
  | ckNum
  | ckStr
  | ckBool
deriving DecidableEq, Repr

/-- Digits of a decimal literal. -/
def digitsToNat : List Char → Option Nat
  | [] => Option.none
  | cs =>
      if cs.all (fun c => c.isDigit) then
        some (cs.foldl (fun acc c => acc * 10 + (c.toNat - 48)) 0)
      else Option.none

/-- Python int(text): an optional sign followed by digits; everything else
    raises ValueError.  (Surrounding whitespace and underscore separators are
    not exercised by the claims.) -/
def parseIntName : Name → Option Int
  | '-' :: rest => (digitsToNat rest).map (fun n => -(n : Int))
  | '+' :: rest => (digitsToNat rest).map (fun n => (n : Int))
  | s => (digitsToNat s).map (fun n => (n : Int))

/-- Python float(text) on the subdomain of plain decimal literals. -/
def parseRatName (s : Name) : Option Rat :=
  let core : Name → Option Rat := fun t =>
    match t.splitOn '.' with
    | [intPart] => (digitsToNat intPart).map (fun n => (n : Rat))
    | [intPart, fracPart] =>
        match digitsToNat intPart, digitsToNat fracPart with
        | some n, some f =>
            some ((n : Rat) + (f : Rat) / ((10 : Rat) ^ fracPart.length))
        | _, _ => Option.none
    | _ => Option.none
  match s with
  | '-' :: rest => (core rest).map (fun q => -q)
  | '+' :: rest => core rest
  | _ => core s

/-- Truncation toward zero, the behavior of Python int() on floats. -/
def ratTrunc (q : Rat) : Int :=
  if 0 ≤ q then ⌊q⌋ else ⌈q⌉

/-- Decimal rendering of an integer, the behavior of Python str() on ints. -/
def intToName (n : Int) : Name := (toString n).toList

/-- Python truthiness, the behavior of bool(): empty containers, zero
    numbers, the empty string and None are falsy; Schema and GenericSchema
    instances define neither __bool__ nor __len__ and are always truthy. -/
def pyTruthy : Value → Bool
  | .vnone => false
  | .vbool b => b
  | .vint n => n ≠ 0
  | .vfloat q => q ≠ 0
  | .vstr s => !s.isEmpty
  | .vlist xs => !xs.isEmpty
  | .vdict kvs => !kvs.isEmpty
  | .vinst _ _ => true
  | .vgen _ => true

/-- Python int(value). -/
def coerceIntFn : Value → Except Err Value
  | .vint n => .ok (.vint n)
  | .vbool b => .ok (.vint (if b then 1 else 0))
  | .vfloat q => .ok (.vint (ratTrunc q))
  | .vstr s =>
      match parseIntName s with
      | some n => .ok (.vint n)
      | Option.none => .error .valueErr
  | _ => .error .typeErr

/-- Python float(value). -/
def coerceNumFn : Value → Except Err Value
  | .vint n => .ok (.vfloat (n : Rat))
  | .vbool b => .ok (.vfloat (if b then 1 else 0))
  | .vfloat q => .ok (.vfloat q)
  | .vstr s =>
      match parseRatName s with
      | some q => .ok (.vfloat q)
      | Option.none => .error .valueErr
  | _ => .error .typeErr

/-- Python str(value) on the modelled subdomain: strings, integers,
    booleans and None.  The repr-based text of floats and containers is an
    unmodelled leaf adapter (the spec places the concrete primitive
    coercions out of scope) and no claim below exercises it. -/
def coerceStrFn : Value → Except Err Value
  | .vstr s => .ok (.vstr s)
  | .vint n => .ok (.vstr (intToName n))
  | .vbool b =>
      .ok (.vstr (if b then String.toList "True" else String.toList "False"))
  | .vnone => .ok (.vstr (String.toList "None"))
  | _ => .error .typeErr

/-- Python equality with the empty string. -/
def isEmptyStrV : Value → Bool
  | .vstr [] => true
  | _ => false

/-- CoerceType.function: take call_args[0]; when not required and the value
    lies in the type-specific null_types tuple - (None, "") for Str, (None,)
    otherwise - pass it through unchanged; otherwise convert. -/
def coerceApply (k : CoerceK) (required : Bool) (args : List Value) :
    Except Err Value :=
  match args with
  | [] => .error .indexErr
  | v :: _ =>
      let isNull :=
        match k with
        | .ckStr => v.isNone || isEmptyStrV v
        | _ => v.isNone
      if !required && isNull then pure v
      else
        match k with
        | .ckInt => coerceIntFn v
        | .ckNum => coerceNumFn v
        | .ckStr => coerceStrFn v
        | .ckBool => pure (.vbool (pyTruthy v))

/-- The _many_items helper: drop Nones; more than one remaining argument is
    the list itself; exactly one remaining sequence is taken as the list;
    exactly one remaining scalar is wrapped; none gives the empty list. -/
def manyItems (dropNones : Bool) (callArgs : List Value) : List Value :=
  let ca := if dropNones then callArgs.filter (fun v => !v.isNone)
            else callArgs
  if 1 < ca.length then ca
  else
    match ca with
    | [.vlist xs] => xs
    | [v] => [v]
    | _ => []

/-- The transformation expression nodes needed by the claims.  A tlit
    argument models a literal (non-node) positional argument, which
    Transformation.__call__ passes through unevaluated; tmany carries the
    coercion class given as subtrans together with the required flag
    forwarded to it via **kwargs.  Many's guard (isinstance of the subtrans
    against Submapping) compares a class object against an instance type and
    is False for every coercion class, so it never fires here. -/
inductive Transform where
  | tlit (v : Value)
  | tget (path : List Name) (required : Bool)
  | tcoerce (k : CoerceK) (required : Bool) (args : List Transform)
  | tmany (k : CoerceK) (subRequired : Bool) (args : List Transform)

mutual
/-- Evaluate one transformation node against a source. -/
def evalT (t : Transform) (source : Value) : Except Err Value :=
  match t with
  | .tlit v => .ok v
  | .tget path required => getPath required source path
  | .tcoerce k required args => do
      let ca ← evalArgs args source
      coerceApply k required ca
  | .tmany k kreq args => do
      let ca ← evalArgs args source
      let items := manyItems true ca
      let rs ← manyApply k kreq items
      pure (.vlist rs)

/-- Transformation.__call__: evaluate each positional argument against the
    source, nodes depth-first and literals as-is. -/
def evalArgs (args : List Transform) (source : Value) :
    Except Err (List Value) :=
  match args with
  | [] => pure []
  | a :: rest => do
      let v ← (match a with
        | .tlit w => pure w
        | node => evalT node source)
      let vs ← evalArgs rest source
      pure (v :: vs)

/-- The comprehension of Many.function: construct subtrans(item, **kwargs)
    and call it for every collapsed item. -/
def manyApply (k : CoerceK) (kreq : Bool) (items : List Value) :
    Except Err (List Value) :=
  match items with
  | [] => pure []
  | i :: rest => do
      let r ← coerceApply k kreq [i]
      let rs ← manyApply k kreq rest
      pure (r :: rs)
end

/-! ## Auxiliary predicates used by the claim statements -/

/-- Does the result avoid every real error (fuel exhaustion aside)? -/
def okOrFuel {α : Type} (r : Except Err α) : Prop :=
  ∀ e, r = .error e → e = .fuelOut

/-- Does a path segment fail to resolve on this source (missing dict key,
    missing attribute)? -/
def segAbsent (source : Value) (seg : Name) : Bool :=
  match source with
  | .vdict kvs => (lookupA kvs seg).isNone
  | .vgen store => (lookupA store seg).isNone
  | .vinst cls store => (instanceGetattrOpt cls store seg).isNone
  | _ => true

/-- Is the source a GenericSchema instance? -/
def isGenV : Value → Bool
  | .vgen _ => true
  | _ => false

/-- A scalar runtime value (no container, no instance). -/
def isScalarV : Value → Bool
  | .vnone => true
  | .vbool _ => true
  | .vint _ => true
  | .vfloat _ => true
  | .vstr _ => true
  | _ => false

/-- A field whose declared type is scalar. -/
def isScalarField : FieldSpec → Bool
  | .boolF _ _ => true
  | .intF _ _ => true
  | .numF _ _ => true
  | .unicodeF _ _ _ => true
  | _ => false

/-- A falsy-but-not-nullish value: False, 0, 0.0, or the empty string. -/
def isFalsyScalar : Value → Bool
  | .vbool false => true
  | .vint n => n = 0
  | .vfloat q => q = 0
  | .vstr [] => true
  | _ => false

/-- A name needing no de-escaping on write (it cannot carry the privacy
    prefix because it does not start with an underscore). -/
def plainName : Name → Bool
  | [] => false
  | c :: _ => c ≠ '_'

/-- Does the string contain two consecutive underscores? -/
def hasDU (s : List Char) : Bool :=
  (dropAfterDU s).isSome

/-- A name needing no de-escaping anywhere in the construction pipeline: it
    does not start with a double underscore and dedunder leaves it
    unchanged. -/
def noEscapeName (k : Name) : Bool :=
  !startsDU k && decide (dedunder k = k)

/-- The Many collapse rule exactly as the spec words it (claim-side
    definition, to be compared with the source-side manyItems): drop nulls;
    more than one remaining argument forms the list; exactly one remaining
    sequence is the list; exactly one remaining scalar is wrapped; none
    gives the empty list. -/
def manyRule (ca : List Value) : List Value :=
  let kept := ca.filter (fun v => !v.isNone)
  if 1 < kept.length then kept
  else
    match kept with
    | [Value.vlist xs] => xs
    | [v] => [v]
    | _ => []

/-! ## Concrete schemas and inputs used by witnesses and counterexamples -/

/-- Shorthand for building names. -/
def nm (s : String) : Name := s.toList

/-- A schema with one required IntegerField named good. -/
def goodCls : SchemaClass := [(nm "good", .intF true .snone)]

/-- The crew member schema of the nested-collapse example: two optional
    UnicodeFields. -/
def innerCls : SchemaClass :=
  [(nm "first_name", .unicodeF false false .snone),
   (nm "last_name", .unicodeF false false .snone)]

/-- The town schema of the nested-collapse example: an optional UnicodeField
    and a required Subschema. -/
def outerCls : SchemaClass :=
  [(nm "name", .unicodeF false false .snone),
   (nm "captain", .subF innerCls true .snone)]

/-- The instance dictionary of the outer schema constructed from name Podunk
    and an empty captain dict (as constructInstF computes it). -/
def podunkStore : Store :=
  [(rawInputName, .vdict [(nm "name", .vstr (nm "Podunk")),
                          (nm "captain", .vdict [])]),
   (nm "captain", .vinst innerCls [(rawInputName, .vdict [])]),
   (nm "name", .vstr (nm "Podunk"))]

/-- A schema with one required IntegerField x whose default is 5. -/
def defaultedCls : SchemaClass := [(nm "x", .intF true (.sint 5))]

/-- A schema with optional cool and required bad integer fields, as in the
    mapping-then-validate example of the spec. -/
def coolBadCls : SchemaClass :=
  [(nm "cool", .intF false .snone), (nm "bad", .intF true .snone)]

/-- A schema declaring the reserved name if through the escaping
    convention; after discovery its external field name is if. -/
def fancyCls : SchemaClass := [(nm "if", .intF true .snone)]

/-- A class namespace with a plainly named field, a non-field attribute and
    a privately escaped field. -/
def c2ns : List (Name × Bool) :=
  [(nm "b", true), (nm "zz", false), (nm "_Foo__a", true)]

/-! # Theorems -/

/-! ## Shared helper lemmas -/

theorem falsy_shapes (v : Value) (h : isFalsyScalar v = true) :
    v = .vbool false ∨ v = .vint 0 ∨ v = .vfloat 0 ∨ v = .vstr [] := by
  cases v with
  | vbool b => cases b <;> simp_all [isFalsyScalar]
  | vint n =>
      simp [isFalsyScalar] at h
      subst h
      simp
  | vfloat q =>
      simp [isFalsyScalar] at h
      subst h
      simp
  | vstr s => cases s <;> simp_all [isFalsyScalar]
  | vnone => simp [isFalsyScalar] at h
  | vlist xs => simp [isFalsyScalar] at h
  | vdict kvs => simp [isFalsyScalar] at h
  | vinst cls store => simp [isFalsyScalar] at h
  | vgen store => simp [isFalsyScalar] at h

theorem nullish_falsy (v : Value) (h : isFalsyScalar v = true) :
    nullishV true v = false := by
  rcases falsy_shapes v h with rfl | rfl | rfl | rfl <;> rfl

theorem fieldSerialize_falsy (fuel : Nat) (implicit : Bool) (field : Name)
    (fs : FieldSpec) (v : Value) (h : isFalsyScalar v = true) :
    fieldSerializeF fuel implicit field fs v = .ok v ∨
    fieldSerializeF fuel implicit field fs v = .error .fuelOut := by
  rcases falsy_shapes v h with rfl | rfl | rfl | rfl <;>
    (cases fuel with
     | zero => right; rfl
     | succ f =>
         cases fs <;>
           first
             | (left; rfl)
             | (cases f with
                | zero => right; rfl
                | succ f2 => left; rfl))

theorem serializeVal_falsy (fuel : Nat) (implicit : Bool) (v : Value)
    (h : isFalsyScalar v = true) :
    serializeValF fuel implicit v = .ok v ∨
    serializeValF fuel implicit v = .error .fuelOut := by
  rcases falsy_shapes v h with rfl | rfl | rfl | rfl <;>
    (cases fuel with
     | zero => right; rfl
     | succ f => left; rfl)

theorem genValue_falsy (fuel : Nat) (v : Value)
    (h : isFalsyScalar v = true) :
    genValueF fuel true v = .ok v ∨ genValueF fuel true v = .error .fuelOut := by
  rcases falsy_shapes v h with rfl | rfl | rfl | rfl <;>
    (cases fuel with
     | zero => right; rfl
     | succ f =>
         cases f with
         | zero => right; rfl
         | succ f2 => left; rfl)

/-! ## C6: serialization with implicit nulls emits no nullish value -/

/-- C6: for every schema instance, every key-value pair in the dictionary
    produced by serialize with implicit_nulls set carries a value that is not
    nullish - not None, not an empty list or dict, and not an object
    reporting itself empty. -/
theorem c6_implicit_serialize_no_nullish :
    ∀ (fuel : Nat) (cls : SchemaClass) (store : Store)
      (out : List (Name × Value)),
      serializeInstF fuel true cls store = .ok out →
      ∀ k v, (k, v) ∈ out → nullishV true v = false := by
  intro fuel
  induction fuel with
  | zero =>
      intro cls store out h
      simp [serializeInstF] at h
  | succ f ih =>
      intro cls store out h k v hmem
      match cls with
      | [] =>
          simp only [serializeInstF, pure, Except.pure, Except.ok.injEq] at h
          subst h
          simp at hmem
      | (k0, fs0) :: rest =>
          simp only [serializeInstF] at h
          cases h1 : fieldSerializeF f true k0 fs0 (getattrF store k0 fs0) with
          | error e => simp [h1, bind, Except.bind] at h
          | ok w1 =>
              simp only [h1, bind, Except.bind] at h
              cases h2 : serializeValF f true w1 with
              | error e => simp [h2, bind, Except.bind] at h
              | ok w2 =>
                  simp only [h2, bind, Except.bind] at h
                  cases h3 : serializeInstF f true rest store with
                  | error e => simp [h3, bind, Except.bind] at h
                  | ok rest' =>
                      simp only [h3, bind, Except.bind, pure, Except.pure,
                        Except.ok.injEq] at h
                      by_cases hn : nullishV true w2 = true
                      · rw [if_pos (by simp [hn])] at h
                        subst h
                        exact ih rest store rest' h3 k v hmem
                      · rw [if_neg (by simp [hn])] at h
                        subst h
                        rcases List.mem_cons.mp hmem with heq | hmem2
                        · injection heq with hk hv
                          subst hv
                          simpa using hn
                        · exact ih rest store rest' h3 k v hmem2

/-- Witness for C6 at a concrete instance: a schema with one integer field
    holding 0 serializes to a dict whose only value, 0, is not nullish. -/
theorem c6_implicit_serialize_no_nullish_witness :
    nullishV true (Value.vint 0) = false :=
  c6_implicit_serialize_no_nullish 5 goodCls [(nm "good", .vint 0)]
    [(nm "good", .vint 0)] rfl (nm "good") (.vint 0)
    (List.mem_singleton.mpr rfl)

/-! ## C10: falsy but non-nullish values are retained -/

/-- C10: serialization with implicit nulls keeps keys whose value is False,
    0, 0.0 or the empty string, for Schema instances and for GenericSchema
    instances alike: the nullish test drops only None, empty containers and
    objects exposing a true is_empty, not every falsy value. -/
theorem c10_falsy_values_retained :
    (∀ (fuel : Nat) (cls : SchemaClass) (store : Store)
       (out : List (Name × Value)) (k : Name) (fs : FieldSpec) (v : Value),
       (k, fs) ∈ cls → lookupA store k = some v → isFalsyScalar v = true →
       serializeInstF fuel true cls store = .ok out → (k, v) ∈ out)
    ∧ (∀ (fuel : Nat) (store : Store) (out : List (Name × Value))
         (k : Name) (v : Value),
         (k, v) ∈ store → isFalsyScalar v = true →
         serializeGenF fuel true store = .ok out → (k, v) ∈ out) := by
  constructor
  · intro fuel
    induction fuel with
    | zero =>
        intro cls store out k fs v hc hl hf h
        simp [serializeInstF] at h
    | succ f ih =>
        intro cls store out k fs v hc hl hf h
        match cls with
        | [] => simp at hc
        | (k0, fs0) :: rest =>
            simp only [serializeInstF] at h
            cases h1 : fieldSerializeF f true k0 fs0
                (getattrF store k0 fs0) with
            | error e => simp [h1, bind, Except.bind] at h
            | ok w1 =>
                simp only [h1, bind, Except.bind] at h
                cases h2 : serializeValF f true w1 with
                | error e => simp [h2, bind, Except.bind] at h
                | ok w2 =>
                    simp only [h2, bind, Except.bind] at h
                    cases h3 : serializeInstF f true rest store with
                    | error e => simp [h3, bind, Except.bind] at h
                    | ok rest' =>
                        simp only [h3, bind, Except.bind, pure, Except.pure,
                          Except.ok.injEq] at h
                        rcases List.mem_cons.mp hc with heq | hc2
                        · injection heq with hk hfs
                          subst hk
                          subst hfs
                          have hget : getattrF store k fs = v := by
                            have hnn : v.isNone = false := by
                              rcases falsy_shapes v hf with rfl | rfl | rfl | rfl
                                <;> rfl
                            simp [getattrF, hl, hnn]
                          rw [hget] at h1
                          rcases fieldSerialize_falsy f true k fs v hf with
                            hok | hbad
                          · have hw1 : w1 = v := by
                              injection h1.symm.trans hok
                            subst hw1
                            rcases serializeVal_falsy f true w1 hf with
                              hok2 | hbad2
                            · have hw2 : w2 = w1 := by
                                injection h2.symm.trans hok2
                              subst hw2
                              rw [if_neg (by simp [nullish_falsy w2 hf])] at h
                              subst h
                              exact List.mem_cons_self _ _
                            · rw [h2] at hbad2
                              cases hbad2
                          · rw [h1] at hbad
                            cases hbad
                        · have hmem := ih rest store rest' k fs v hc2 hl hf h3
                          by_cases hn : (true && nullishV true w2) = true
                          · rw [if_pos hn] at h
                            subst h
                            exact hmem
                          · rw [if_neg hn] at h
                            subst h
                            exact List.mem_cons_of_mem _ hmem
  · intro fuel
    induction fuel with
    | zero =>
        intro store out k v hs hf h
        simp [serializeGenF] at h
    | succ f ih =>
        intro store out k v hs hf h
        match store with
        | [] => simp at hs
        | (k0, v0) :: rest =>
            simp only [serializeGenF] at h
            cases h1 : genValueF f true v0 with
            | error e => simp [h1, bind, Except.bind] at h
            | ok w1 =>
                simp only [h1, bind, Except.bind] at h
                cases h2 : serializeGenF f true rest with
                | error e => simp [h2, bind, Except.bind] at h
                | ok rest' =>
                    simp only [h2, bind, Except.bind, pure, Except.pure,
                      Except.ok.injEq] at h
                    rcases List.mem_cons.mp hs with heq | hs2
                    · injection heq with hk hv
                      subst hk
                      subst hv
                      rcases genValue_falsy f v hf with hok | hbad
                      · have hw1 : w1 = v := by
                          injection h1.symm.trans hok
                        subst hw1
                        rw [if_neg (by simp [nullish_falsy w1 hf])] at h
                        subst h
                        exact List.mem_cons_self _ _
                      · rw [h1] at hbad
                        cases hbad
                    · have hmem := ih rest rest' k v hs2 hf h2
                      by_cases hn : (true && nullishV true w1) = true
                      · rw [if_pos hn] at h
                        subst h
                        exact hmem
                      · rw [if_neg hn] at h
                        subst h
                        exact List.mem_cons_of_mem _ hmem

/-- Witness for C10: a schema field holding False and a generic attribute
    holding the empty string are both retained. -/
theorem c10_falsy_values_retained_witness :
    ((nm "b", Value.vbool false) ∈ [(nm "b", Value.vbool false)])
    ∧ ((nm "s", Value.vstr []) ∈ [(nm "s", Value.vstr [])]) :=
  ⟨c10_falsy_values_retained.1 5 [(nm "b", .boolF true .snone)]
      [(nm "b", .vbool false)] [(nm "b", .vbool false)] (nm "b")
      (.boolF true .snone) (.vbool false) (List.mem_singleton.mpr rfl) rfl
      rfl rfl,
   c10_falsy_values_retained.2 5 [(nm "s", .vstr [])]
      [(nm "s", .vstr [])] (nm "s") (.vstr []) (List.mem_singleton.mpr rfl)
      rfl rfl⟩

/-! ## C1: ArrayField.validate examines only the first item of a
    schema-typed array

  The loop in ArrayField.validate returns inside its first iteration, so a
  convertible-but-invalid item in any later position is never validated.
  The first conjunct evaluates the embedded validator on the failing input
  from the claim - a list whose second item is convertible but invalid -
  and shows that validation succeeds; the second conjunct shows the same
  second item alone raises Invalid naming the offending value and expected
  type, so the two-item acceptance is exactly the early return. -/

/-- C1 (code bug): validating a two-item list whose second item is
    convertible but invalid succeeds, because only the first item is
    examined; validating the bad item alone raises Invalid. -/
theorem c1_array_schema_validate_checks_only_first_item :
    (fieldValidateF 10 (nm "unnamed") (.arrayF (.schemaE goodCls) true .snone)
        (.vlist [.vdict [(nm "good", .vint 1)],
                 .vdict [(nm "good", .vstr (nm "bad"))]])
      = .ok true)
    ∧ (fieldValidateF 10 (nm "unnamed")
        (.arrayF (.schemaE goodCls) true .snone)
        (.vlist [.vdict [(nm "good", .vstr (nm "bad"))]])
      = .error (.invalidNotValid (nm "good") (.vstr (nm "bad")) .tyInt)) :=
  ⟨rfl, rfl⟩

/-! ## C4: Get on a missing path segment -/

/-- Counterexample for C4 as stated: a required Get of a missing attribute
    on a GenericSchema source returns None instead of raising Missing,
    because GenericSchema.__getattr__ returns self.__dict__.get(name). -/
theorem c4_get_missing_counterexample :
    getPath true (Value.vgen []) [nm "missing_key"] = .ok Value.vnone := rfl

theorem getPath_from_none :
    ∀ (rest : List Name) (seg : Name),
      getPath false Value.vnone (seg :: rest) = .ok Value.vnone := by
  intro rest
  induction rest with
  | nil => intro seg; rfl
  | cons seg2 rest2 ih =>
      intro seg
      simp only [getPath, getStep, bind, Except.bind]
      exact ih seg2

/-- C4 as amended: with required false, a missing step yields None and any
    further path segments keep yielding None; with required true, a missing
    step raises Missing naming the segment - unless the object at that step
    is a GenericSchema, whose unknown-attribute lookup yields None, in
    which case the required Get returns None. -/
theorem c4_get_missing_amended :
    (∀ (source : Value) (seg : Name) (rest : List Name),
       segAbsent source seg = true →
       getPath false source (seg :: rest) = .ok Value.vnone)
    ∧ (∀ (source : Value) (seg : Name) (rest : List Name),
       segAbsent source seg = true → isGenV source = false →
       getPath true source (seg :: rest) = .error (.missingE seg))
    ∧ (∀ (store : Store) (seg : Name),
       lookupA store seg = Option.none →
       getPath true (Value.vgen store) [seg] = .ok Value.vnone) := by
  refine ⟨?_, ?_, ?_⟩
  · intro source seg rest habs
    have hstep : getStep false source seg = .ok Value.vnone := by
      cases source with
      | vdict kvs =>
          simp [segAbsent, Option.isNone_iff_eq_none] at habs
          simp [getStep, habs]
      | vgen store =>
          simp [segAbsent, Option.isNone_iff_eq_none] at habs
          simp [getStep, habs]
      | vinst cls store =>
          simp [segAbsent, Option.isNone_iff_eq_none] at habs
          simp [getStep, habs]
      | vnone => rfl
      | vbool b => rfl
      | vint n => rfl
      | vfloat q => rfl
      | vstr s => rfl
      | vlist xs => rfl
    cases rest with
    | nil => exact hstep
    | cons seg2 rest2 =>
        simp only [getPath, hstep, bind, Except.bind]
        exact getPath_from_none rest2 seg2
  · intro source seg rest habs hng
    have hstep : getStep true source seg = .error (.missingE seg) := by
      cases source with
      | vdict kvs =>
          simp [segAbsent, Option.isNone_iff_eq_none] at habs
          simp [getStep, habs]
      | vgen store => simp [isGenV] at hng
      | vinst cls store =>
          simp [segAbsent, Option.isNone_iff_eq_none] at habs
          simp [getStep, habs]
      | vnone => rfl
      | vbool b => rfl
      | vint n => rfl
      | vfloat q => rfl
      | vstr s => rfl
      | vlist xs => rfl
    cases rest with
    | nil => exact hstep
    | cons seg2 rest2 => simp only [getPath, hstep, bind, Except.bind]
  · intro store seg hl
    simp [getPath, getStep, hl]

/-- Witness for C4 as amended, at the concrete inputs of the spec example:
    a missing key in a dict source yields None when not required - also when
    further segments follow - and raises Missing when required. -/
theorem c4_get_missing_amended_witness :
    getPath false (Value.vdict [(nm "a", .vint 1)]) [nm "missing_key"]
      = .ok Value.vnone
    ∧ getPath false (Value.vdict []) [nm "x", nm "y"] = .ok Value.vnone
    ∧ getPath true (Value.vdict [(nm "a", .vint 1)]) [nm "missing_key"]
      = .error (.missingE (nm "missing_key")) :=
  ⟨c4_get_missing_amended.1 (Value.vdict [(nm "a", .vint 1)])
      (nm "missing_key") [] (by rfl),
   c4_get_missing_amended.1 (Value.vdict []) (nm "x") [nm "y"] (by rfl),
   c4_get_missing_amended.2.1 (Value.vdict [(nm "a", .vint 1)])
      (nm "missing_key") [] (by rfl) rfl⟩

/-! ## C3: serialization raises neither Invalid nor Missing; validation of a
    required-but-null field raises Invalid -/

theorem okOrFuel_pure {α : Type} (a : α) : okOrFuel (pure a : Except Err α) :=
  fun _ h => Except.noConfusion h

theorem okOrFuel_ok {α : Type} (a : α) :
    okOrFuel (Except.ok a : Except Err α) :=
  fun _ h => Except.noConfusion h

theorem okOrFuel_bind {α β : Type} {m : Except Err α} {f : α → Except Err β}
    (h1 : okOrFuel m) (h2 : ∀ a, okOrFuel (f a)) :
    okOrFuel (m >>= f) := by
  cases hm : m with
  | error e0 =>
      intro e h
      have h' : (Except.error e0 : Except Err β) = .error e := h
      injection h' with he
      subst he
      exact h1 e0 hm
  | ok a =>
      intro e h
      exact h2 a e h

theorem okOrFuel_map {α β : Type} {m : Except Err α} (g : α → β)
    (h1 : okOrFuel m) : okOrFuel (m.map g) := by
  cases hm : m with
  | error e0 =>
      intro e h
      have h' : (Except.error e0 : Except Err β) = .error e := h
      injection h' with he
      subst he
      exact h1 e0 hm
  | ok a =>
      intro e h
      exact Except.noConfusion h

theorem serialize_no_real_errors :
    ∀ fuel : Nat,
      (∀ implicit v, okOrFuel (serializeValF fuel implicit v))
      ∧ (∀ implicit field fs v,
          okOrFuel (fieldSerializeF fuel implicit field fs v))
      ∧ (∀ implicit xs, okOrFuel (arrayFlattenF fuel implicit xs))
      ∧ (∀ implicit cls store,
          okOrFuel (serializeInstF fuel implicit cls store))
      ∧ (∀ implicit store, okOrFuel (serializeGenF fuel implicit store))
      ∧ (∀ implicit v, okOrFuel (genValueF fuel implicit v))
      ∧ (∀ implicit xs, okOrFuel (genListF fuel implicit xs)) := by
  intro fuel
  induction fuel with
  | zero =>
      refine ⟨?_, ?_, ?_, ?_, ?_, ?_, ?_⟩ <;>
        (intros; intro e h; injection h with he; exact he.symm)
  | succ f ih =>
      obtain ⟨ihval, ihfield, ihflat, ihinst, ihgen, ihgv, ihgl⟩ := ih
      have hval : ∀ implicit v, okOrFuel (serializeValF (f + 1) implicit v) := by
        intro implicit v
        cases v with
        | vinst c s =>
            exact okOrFuel_map _ (ihinst implicit c s)
        | vgen s => exact okOrFuel_map _ (ihgen implicit s)
        | vnone => exact okOrFuel_pure _
        | vbool b => exact okOrFuel_pure _
        | vint n => exact okOrFuel_pure _
        | vfloat q => exact okOrFuel_pure _
        | vstr s => exact okOrFuel_pure _
        | vlist xs => exact okOrFuel_pure _
        | vdict kvs => exact okOrFuel_pure _
      have hflat : ∀ implicit xs,
          okOrFuel (arrayFlattenF (f + 1) implicit xs) := by
        intro implicit xs
        cases xs with
        | nil => exact okOrFuel_pure _
        | cons i rest =>
            exact okOrFuel_bind (ihval implicit i) fun flat =>
              okOrFuel_bind (ihflat implicit rest) fun rest' =>
                okOrFuel_pure _
      have hfield : ∀ implicit field fs v,
          okOrFuel (fieldSerializeF (f + 1) implicit field fs v) := by
        intro implicit field fs v
        cases fs with
        | boolF r d => exact okOrFuel_pure _
        | intF r d => exact okOrFuel_pure _
        | numF r d => exact okOrFuel_pure _
        | unicodeF s r d => exact okOrFuel_pure _
        | objectF r d =>
            refine okOrFuel_bind (ihval implicit v) fun w => ?_
            cases hw : if w.isNone then Value.vdict [] else w with
            | vdict kvs =>
                by_cases hc : (implicit && kvs.all fun kv =>
                    nullishV true kv.2) = true
                · simp only [fieldSerializeF, hw, hc]
                  exact okOrFuel_pure _
                · simp only [fieldSerializeF, hw]
                  rw [if_neg hc]
                  exact okOrFuel_pure _
            | vnone => simp only [fieldSerializeF, hw]; exact okOrFuel_pure _
            | vbool b => simp only [fieldSerializeF, hw]; exact okOrFuel_pure _
            | vint n => simp only [fieldSerializeF, hw]; exact okOrFuel_pure _
            | vfloat q =>
                simp only [fieldSerializeF, hw]; exact okOrFuel_pure _
            | vstr s => simp only [fieldSerializeF, hw]; exact okOrFuel_pure _
            | vlist xs => simp only [fieldSerializeF, hw]; exact okOrFuel_pure _
            | vinst c st =>
                simp only [fieldSerializeF, hw]; exact okOrFuel_pure _
            | vgen st => simp only [fieldSerializeF, hw]; exact okOrFuel_pure _
        | subF c r d =>
            refine okOrFuel_bind (ihval implicit v) fun w => ?_
            cases hw : if w.isNone then Value.vdict [] else w with
            | vdict kvs =>
                by_cases hc : (implicit && kvs.all fun kv =>
                    nullishV true kv.2) = true
                · simp only [fieldSerializeF, hw, hc]
                  exact okOrFuel_pure _
                · simp only [fieldSerializeF, hw]
                  rw [if_neg hc]
                  exact okOrFuel_pure _
            | vnone => simp only [fieldSerializeF, hw]; exact okOrFuel_pure _
            | vbool b => simp only [fieldSerializeF, hw]; exact okOrFuel_pure _
            | vint n => simp only [fieldSerializeF, hw]; exact okOrFuel_pure _
            | vfloat q =>
                simp only [fieldSerializeF, hw]; exact okOrFuel_pure _
            | vstr s => simp only [fieldSerializeF, hw]; exact okOrFuel_pure _
            | vlist xs => simp only [fieldSerializeF, hw]; exact okOrFuel_pure _
            | vinst c2 st =>
                simp only [fieldSerializeF, hw]; exact okOrFuel_pure _
            | vgen st => simp only [fieldSerializeF, hw]; exact okOrFuel_pure _
        | arrayF e r d =>
            cases v with
            | vlist xs =>
                exact okOrFuel_bind (ihflat implicit xs) fun items =>
                  okOrFuel_pure _
            | vnone => exact okOrFuel_pure _
            | vbool b => exact okOrFuel_pure _
            | vint n => exact okOrFuel_pure _
            | vfloat q => exact okOrFuel_pure _
            | vstr s => exact okOrFuel_pure _
            | vdict kvs => exact okOrFuel_pure _
            | vinst c st => exact okOrFuel_pure _
            | vgen st => exact okOrFuel_pure _
      have hinst : ∀ implicit cls store,
          okOrFuel (serializeInstF (f + 1) implicit cls store) := by
        intro implicit cls store
        cases cls with
        | nil => exact okOrFuel_pure _
        | cons kf rest =>
            obtain ⟨k0, fs0⟩ := kf
            exact okOrFuel_bind (ihfield implicit k0 fs0 _) fun w1 =>
              okOrFuel_bind (ihval implicit w1) fun w2 =>
                okOrFuel_bind (ihinst implicit rest store) fun rest' =>
                  okOrFuel_pure _
      have hgen : ∀ implicit store,
          okOrFuel (serializeGenF (f + 1) implicit store) := by
        intro implicit store
        cases store with
        | nil => exact okOrFuel_pure _
        | cons kv rest =>
            obtain ⟨k0, v0⟩ := kv
            exact okOrFuel_bind (ihgv implicit v0) fun w =>
              okOrFuel_bind (ihgen implicit rest) fun rest' =>
                okOrFuel_pure _
      have hgv : ∀ implicit v, okOrFuel (genValueF (f + 1) implicit v) := by
        intro implicit v
        refine okOrFuel_bind (ihval implicit v) fun w => ?_
        refine okOrFuel_bind ?_ fun w2 => okOrFuel_pure _
        cases w with
        | vlist xs => exact okOrFuel_map _ (ihgl implicit xs)
        | vnone => exact okOrFuel_pure _
        | vbool b => exact okOrFuel_pure _
        | vint n => exact okOrFuel_pure _
        | vfloat q => exact okOrFuel_pure _
        | vstr s => exact okOrFuel_pure _
        | vdict kvs => exact okOrFuel_pure _
        | vinst c st => exact okOrFuel_pure _
        | vgen st => exact okOrFuel_pure _
      have hgl : ∀ implicit xs, okOrFuel (genListF (f + 1) implicit xs) := by
        intro implicit xs
        cases xs with
        | nil => exact okOrFuel_pure _
        | cons i rest =>
            exact okOrFuel_bind (ihgv implicit i) fun s =>
              okOrFuel_bind (ihgl implicit rest) fun rest' =>
                okOrFuel_pure _
      exact ⟨hval, hfield, hflat, hinst, hgen, hgv, hgl⟩

theorem construct_no_real_errors :
    ∀ fuel : Nat,
      (∀ fs v, okOrFuel (coerceSetF fuel fs v))
      ∧ (∀ ec xs, okOrFuel (coerceItemsF fuel ec xs))
      ∧ (∀ cls store n v, okOrFuel (setattrVF fuel cls store n v))
      ∧ (∀ cls kwargs, okOrFuel (constructInstF fuel cls kwargs))
      ∧ (∀ cls todo store, okOrFuel (initSubsF fuel cls todo store))
      ∧ (∀ cls store kwargs, okOrFuel (applyKwargsF fuel cls store kwargs)) := by
  intro fuel
  induction fuel with
  | zero =>
      refine ⟨?_, ?_, ?_, ?_, ?_, ?_⟩ <;>
        (intros; intro e h; injection h with he; exact he.symm)
  | succ f ih =>
      obtain ⟨ihcs, ihci, ihsa, ihc, ihis, ihak⟩ := ih
      have hcs : ∀ fs v, okOrFuel (coerceSetF (f + 1) fs v) := by
        intro fs v
        cases fs with
        | subF c r d =>
            cases v with
            | vdict kvs =>
                exact okOrFuel_bind (ihc c kvs) fun st => okOrFuel_pure _
            | vnone => exact okOrFuel_pure _
            | vbool b => exact okOrFuel_pure _
            | vint n => exact okOrFuel_pure _
            | vfloat q => exact okOrFuel_pure _
            | vstr s => exact okOrFuel_pure _
            | vlist xs => exact okOrFuel_pure _
            | vinst c2 st => exact okOrFuel_pure _
            | vgen st => exact okOrFuel_pure _
        | arrayF e r d =>
            cases e with
            | schemaE ec =>
                cases v with
                | vlist xs =>
                    exact okOrFuel_bind (ihci ec xs) fun items =>
                      okOrFuel_pure _
                | vnone => exact okOrFuel_pure _
                | vbool b => exact okOrFuel_pure _
                | vint n => exact okOrFuel_pure _
                | vfloat q => exact okOrFuel_pure _
                | vstr s => exact okOrFuel_pure _
                | vdict kvs => exact okOrFuel_pure _
                | vinst c2 st => exact okOrFuel_pure _
                | vgen st => exact okOrFuel_pure _
            | noneE => exact okOrFuel_pure _
            | primE p => exact okOrFuel_pure _
        | boolF r d => exact okOrFuel_pure _
        | intF r d => exact okOrFuel_pure _
        | numF r d => exact okOrFuel_pure _
        | unicodeF s r d => exact okOrFuel_pure _
        | objectF r d => exact okOrFuel_pure _
      have hci : ∀ ec xs, okOrFuel (coerceItemsF (f + 1) ec xs) := by
        intro ec xs
        cases xs with
        | nil => exact okOrFuel_pure _
        | cons i rest =>
            refine okOrFuel_bind ?_ fun i2 =>
              okOrFuel_bind (ihci ec rest) fun rest' => okOrFuel_pure _
            cases i with
            | vdict kvs =>
                exact okOrFuel_bind (ihc ec kvs) fun st => okOrFuel_pure _
            | vnone => exact okOrFuel_pure _
            | vbool b => exact okOrFuel_pure _
            | vint n => exact okOrFuel_pure _
            | vfloat q => exact okOrFuel_pure _
            | vstr s => exact okOrFuel_pure _
            | vlist xs2 => exact okOrFuel_pure _
            | vinst c2 st => exact okOrFuel_pure _
            | vgen st => exact okOrFuel_pure _
      have hsa : ∀ cls store n v, okOrFuel (setattrVF (f + 1) cls store n v) := by
        intro cls store n v
        cases hl : lookupA cls (dedunder n) with
        | some fs =>
            simp only [setattrVF, hl]
            exact okOrFuel_bind (ihcs fs v) fun w => okOrFuel_pure _
        | none =>
            simp only [setattrVF, hl]
            exact okOrFuel_pure _
      have his : ∀ cls todo store, okOrFuel (initSubsF (f + 1) cls todo store) := by
        intro cls todo store
        match todo with
        | [] => exact okOrFuel_pure _
        | (k, .subF c r d) :: rest =>
            exact okOrFuel_bind (ihc c []) fun sub =>
              okOrFuel_bind (ihsa cls store k _) fun store' =>
                ihis cls rest store'
        | (k, .boolF r d) :: rest => exact ihis cls rest store
        | (k, .intF r d) :: rest => exact ihis cls rest store
        | (k, .numF r d) :: rest => exact ihis cls rest store
        | (k, .unicodeF s r d) :: rest => exact ihis cls rest store
        | (k, .objectF r d) :: rest => exact ihis cls rest store
        | (k, .arrayF e r d) :: rest => exact ihis cls rest store
      have hak : ∀ cls store kwargs,
          okOrFuel (applyKwargsF (f + 1) cls store kwargs) := by
        intro cls store kwargs
        match kwargs with
        | [] => exact okOrFuel_pure _
        | (k, v) :: rest =>
            simp only [applyKwargsF]
            by_cases hs : (lookupA cls
                (if startsDU k then stripUnderscores k else k)).isSome = true
            · rw [if_pos hs]
              exact okOrFuel_bind (ihsa cls store _ v) fun store' =>
                ihak cls store' rest
            · rw [if_neg hs]
              exact okOrFuel_bind (okOrFuel_pure _) fun store' =>
                ihak cls store' rest
      have hc : ∀ cls kwargs, okOrFuel (constructInstF (f + 1) cls kwargs) := by
        intro cls kwargs
        exact okOrFuel_bind (ihis cls cls _) fun s1 => ihak cls s1 kwargs
      exact ⟨hcs, hci, hsa, hc, his, hak⟩

/-- The error classification of validation: every raised error is an
    Invalid, the fuel marker, or the TypeError raised by is_schema_type on
    an untyped ArrayField. -/
def vErrOk {α : Type} (r : Except Err α) : Prop :=
  ∀ e, r = .error e → e.isInvalid = true ∨ e = .fuelOut ∨ e = .typeErr

theorem vErrOk_pure {α : Type} (a : α) : vErrOk (pure a : Except Err α) :=
  fun _ h => Except.noConfusion h

theorem vErrOk_bind {α β : Type} {m : Except Err α} {f : α → Except Err β}
    (h1 : vErrOk m) (h2 : ∀ a, vErrOk (f a)) : vErrOk (m >>= f) := by
  cases hm : m with
  | error e0 =>
      intro e h
      have h' : (Except.error e0 : Except Err β) = .error e := h
      injection h' with he
      subst he
      exact h1 e0 hm
  | ok a =>
      intro e h
      exact h2 a e h

theorem vErrOk_of_okOrFuel {α : Type} {m : Except Err α}
    (h : okOrFuel m) : vErrOk m := by
  intro e he
  right
  left
  exact h e he

theorem requiredCheck_vErrOk (field : Name) (r : Bool) (v : Value) :
    vErrOk (requiredCheckF field r v) := by
  intro e h
  simp only [requiredCheckF] at h
  by_cases hc : (r && v.isNone) = true
  · rw [if_pos hc] at h
    injection h with he
    subst he
    left
    rfl
  · rw [if_neg hc] at h
    exact Except.noConfusion h

theorem simpleValidate_vErrOk (field : Name) (r : Bool) (ty : TyRepr)
    (instP : Bool) (v : Value) : vErrOk (simpleValidateF field r ty instP v) := by
  refine vErrOk_bind (requiredCheck_vErrOk field r v) fun a => ?_
  intro e h
  by_cases hc : ((v.isNone && !r) || instP) = true
  · simp only [simpleValidateF, hc, if_true] at h
    exact Except.noConfusion h
  · simp only [simpleValidateF] at h
    rw [if_neg hc] at h
    injection h with he
    subst he
    left
    rfl

theorem primItems_vErrOk (p : PyPrim) (xs : List Value) :
    vErrOk (primItemsCheck p xs) := by
  induction xs with
  | nil => exact vErrOk_pure _
  | cons val rest ih =>
      intro e h
      simp only [primItemsCheck] at h
      by_cases hc : pyIsInstance p val = true
      · rw [if_pos hc] at h
        exact ih e h
      · rw [if_neg hc] at h
        injection h with he
        subst he
        left
        rfl

theorem ucoerce_vErrOk (field : Name) (v : Value) : vErrOk (ucoerce field v) := by
  intro e h
  cases v <;> simp only [ucoerce] at h <;>
    first
      | exact Except.noConfusion h
      | (injection h with he; subst he; left; rfl)

theorem validate_err_classified :
    ∀ fuel : Nat,
      (∀ cls store, vErrOk (validateInstF fuel cls store))
      ∧ (∀ cls store, vErrOk (validateFieldsF fuel cls store))
      ∧ (∀ field fs v, vErrOk (fieldValidateF fuel field fs v)) := by
  intro fuel
  induction fuel with
  | zero =>
      refine ⟨?_, ?_, ?_⟩ <;>
        (intros; intro e h; injection h with he; subst he; right; left; rfl)
  | succ f ih =>
      obtain ⟨ihi, ihfs, ihfv⟩ := ih
      have hcons := construct_no_real_errors f
      have hfv : ∀ field fs v, vErrOk (fieldValidateF (f + 1) field fs v) := by
        intro field fs v
        cases fs with
        | boolF r d => exact simpleValidate_vErrOk _ _ _ _ _
        | intF r d => exact simpleValidate_vErrOk _ _ _ _ _
        | numF r d => exact simpleValidate_vErrOk _ _ _ _ _
        | unicodeF s r d =>
            by_cases hc : (s || (v.isNone && !r)) = true
            · simp only [fieldValidateF, hc, if_true]
              exact simpleValidate_vErrOk _ _ _ _ _
            · simp only [fieldValidateF]
              rw [if_neg hc]
              exact vErrOk_bind (ucoerce_vErrOk field v) fun s2 =>
                simpleValidate_vErrOk _ _ _ _ _
        | objectF r d =>
            refine vErrOk_bind (simpleValidate_vErrOk _ _ _ _ _) fun a => ?_
            cases v with
            | vinst c st =>
                exact vErrOk_bind (ihi c st) fun b => vErrOk_pure _
            | vnone => exact vErrOk_pure _
            | vbool b => exact vErrOk_pure _
            | vint n => exact vErrOk_pure _
            | vfloat q => exact vErrOk_pure _
            | vstr s2 => exact vErrOk_pure _
            | vlist xs => exact vErrOk_pure _
            | vdict kvs => exact vErrOk_pure _
            | vgen st => exact vErrOk_pure _
        | subF c r d =>
            refine vErrOk_bind (requiredCheck_vErrOk field r v) fun a => ?_
            by_cases h1 : (!r && nullishV true v) = true
            · simp only [fieldValidateF, h1, if_true]
              exact vErrOk_pure _
            · rw [if_neg h1]
              by_cases h2 : (!r && isEmptyAttr v) = true
              · rw [if_pos h2]
                exact vErrOk_pure _
              · rw [if_neg h2]
                cases v with
                | vinst c2 st =>
                    exact vErrOk_bind (ihi c2 st) fun b => vErrOk_pure _
                | vgen st => exact vErrOk_pure _
                | vdict kvs =>
                    exact vErrOk_bind
                      (vErrOk_of_okOrFuel (hcons.2.2.2.1 c kvs)) fun st =>
                      vErrOk_bind (ihi c st) fun b => vErrOk_pure _
                | vnone =>
                    exact vErrOk_bind
                      (vErrOk_of_okOrFuel (hcons.2.2.2.1 c [])) fun st =>
                      vErrOk_bind (ihi c st) fun b => vErrOk_pure _
                | vbool b =>
                    exact vErrOk_bind
                      (vErrOk_of_okOrFuel (hcons.2.2.2.1 c [])) fun st =>
                      vErrOk_bind (ihi c st) fun b2 => vErrOk_pure _
                | vint n =>
                    exact vErrOk_bind
                      (vErrOk_of_okOrFuel (hcons.2.2.2.1 c [])) fun st =>
                      vErrOk_bind (ihi c st) fun b => vErrOk_pure _
                | vfloat q =>
                    exact vErrOk_bind
                      (vErrOk_of_okOrFuel (hcons.2.2.2.1 c [])) fun st =>
                      vErrOk_bind (ihi c st) fun b => vErrOk_pure _
                | vstr s2 =>
                    exact vErrOk_bind
                      (vErrOk_of_okOrFuel (hcons.2.2.2.1 c [])) fun st =>
                      vErrOk_bind (ihi c st) fun b => vErrOk_pure _
                | vlist xs =>
                    exact vErrOk_bind
                      (vErrOk_of_okOrFuel (hcons.2.2.2.1 c [])) fun st =>
                      vErrOk_bind (ihi c st) fun b => vErrOk_pure _
        | arrayF el r d =>
            refine vErrOk_bind (simpleValidate_vErrOk _ _ _ _ _) fun a => ?_
            by_cases h1 : (!r && (v.isNone || isEmptyListV v)) = true
            · simp only [fieldValidateF, h1, if_true]
              exact vErrOk_pure _
            · rw [if_neg h1]
              cases el with
              | noneE =>
                  intro e h
                  injection h with he
                  subst he
                  right
                  right
                  rfl
              | primE p =>
                  cases v with
                  | vlist xs => exact primItems_vErrOk p xs
                  | vnone => exact vErrOk_pure _
                  | vbool b => exact vErrOk_pure _
                  | vint n => exact vErrOk_pure _
                  | vfloat q => exact vErrOk_pure _
                  | vstr s2 => exact vErrOk_pure _
                  | vdict kvs => exact vErrOk_pure _
                  | vinst c2 st => exact vErrOk_pure _
                  | vgen st => exact vErrOk_pure _
              | schemaE ec =>
                  cases v with
                  | vlist xs =>
                      cases xs with
                      | nil => exact vErrOk_pure _
                      | cons val rest =>
                          cases val with
                          | vinst c2 st =>
                              cases hb : beqCls c2 ec with
                              | true =>
                                  simp only [hb, if_true]
                                  exact ihi c2 st
                              | false =>
                                  simp only [hb, Bool.false_eq_true,
                                    if_false]
                                  intro e h
                                  injection h with he
                                  subst he
                                  left
                                  rfl
                          | vgen st =>
                              intro e h
                              injection h with he
                              subst he
                              left
                              rfl
                          | vdict kvs =>
                              exact vErrOk_bind
                                (vErrOk_of_okOrFuel (hcons.2.2.2.1 ec kvs))
                                fun st => ihi ec st
                          | vnone =>
                              exact vErrOk_bind
                                (vErrOk_of_okOrFuel (hcons.2.2.2.1 ec []))
                                fun st => ihi ec st
                          | vbool b =>
                              exact vErrOk_bind
                                (vErrOk_of_okOrFuel (hcons.2.2.2.1 ec []))
                                fun st => ihi ec st
                          | vint n =>
                              exact vErrOk_bind
                                (vErrOk_of_okOrFuel (hcons.2.2.2.1 ec []))
                                fun st => ihi ec st
                          | vfloat q =>
                              exact vErrOk_bind
                                (vErrOk_of_okOrFuel (hcons.2.2.2.1 ec []))
                                fun st => ihi ec st
                          | vstr s2 =>
                              exact vErrOk_bind
                                (vErrOk_of_okOrFuel (hcons.2.2.2.1 ec []))
                                fun st => ihi ec st
                          | vlist xs2 =>
                              exact vErrOk_bind
                                (vErrOk_of_okOrFuel (hcons.2.2.2.1 ec []))
                                fun st => ihi ec st
                  | vnone => exact vErrOk_pure _
                  | vbool b => exact vErrOk_pure _
                  | vint n => exact vErrOk_pure _
                  | vfloat q => exact vErrOk_pure _
                  | vstr s2 => exact vErrOk_pure _
                  | vdict kvs => exact vErrOk_pure _
                  | vinst c2 st => exact vErrOk_pure _
                  | vgen st => exact vErrOk_pure _
      have hfs : ∀ cls store, vErrOk (validateFieldsF (f + 1) cls store) := by
        intro cls store
        cases cls with
        | nil => exact vErrOk_pure _
        | cons kf rest =>
            obtain ⟨k0, fs0⟩ := kf
            exact vErrOk_bind (ihfv k0 fs0 _) fun b =>
              vErrOk_bind (ihfs rest store) fun bs => vErrOk_pure _
      have hi : ∀ cls store, vErrOk (validateInstF (f + 1) cls store) := by
        intro cls store
        exact vErrOk_bind (ihfs cls store) fun bs => vErrOk_pure _
      exact ⟨hi, hfs, hfv⟩

/-- A required field reading as None makes its own validator raise. -/
theorem requiredNone_field_fails (fuel : Nat) (field : Name) (fs : FieldSpec)
    (hreq : fs.req = true) :
    ∃ e, fieldValidateF fuel field fs .vnone = .error e := by
  cases fuel with
  | zero => exact ⟨.fuelOut, rfl⟩
  | succ f =>
      cases fs with
      | boolF r d =>
          simp [FieldSpec.req] at hreq
          subst hreq
          exact ⟨.invalidRequired field, rfl⟩
      | intF r d =>
          simp [FieldSpec.req] at hreq
          subst hreq
          exact ⟨.invalidRequired field, rfl⟩
      | numF r d =>
          simp [FieldSpec.req] at hreq
          subst hreq
          exact ⟨.invalidRequired field, rfl⟩
      | unicodeF s r d =>
          simp [FieldSpec.req] at hreq
          subst hreq
          cases s with
          | true => exact ⟨.invalidRequired field, rfl⟩
          | false => exact ⟨.invalidNotStr field .vnone, rfl⟩
      | objectF r d =>
          simp [FieldSpec.req] at hreq
          subst hreq
          exact ⟨.invalidRequired field, rfl⟩
      | subF c r d =>
          simp [FieldSpec.req] at hreq
          subst hreq
          exact ⟨.invalidRequired field, rfl⟩
      | arrayF el r d =>
          simp [FieldSpec.req] at hreq
          subst hreq
          exact ⟨.invalidRequired field, rfl⟩

theorem requiredNone_fields_never_ok :
    ∀ (fuel : Nat) (cls : SchemaClass) (store : Store) (k : Name)
      (fs : FieldSpec),
      (k, fs) ∈ cls → fs.req = true → getattrF store k fs = .vnone →
      ∀ r, validateFieldsF fuel cls store ≠ .ok r := by
  intro fuel
  induction fuel with
  | zero =>
      intro cls store k fs hc hreq hget r h
      exact Except.noConfusion h
  | succ f ih =>
      intro cls store k fs hc hreq hget r h
      match cls with
      | [] => simp at hc
      | (k0, fs0) :: rest =>
          simp only [validateFieldsF] at h
          rcases List.mem_cons.mp hc with heq | hc2
          · injection heq with hk hfs
            subst hk
            subst hfs
            rw [hget] at h
            obtain ⟨e, he⟩ := requiredNone_field_fails f k fs hreq
            rw [he] at h
            simp only [bind, Except.bind] at h
            exact Except.noConfusion h
          · cases h1 : fieldValidateF f k0 fs0 (getattrF store k0 fs0) with
            | error e => simp [h1, bind, Except.bind] at h
            | ok b =>
                simp only [h1, bind, Except.bind] at h
                cases h2 : validateFieldsF f rest store with
                | error e => simp [h2, bind, Except.bind] at h
                | ok bs => exact ih rest store k fs hc2 hreq hget bs h2

/-- C3: for every schema instance, serialization terminates without raising
    Invalid or Missing (the only possible failure of the fueled model is
    fuel exhaustion), while validation of an instance whose required field
    reads as None never succeeds and - whenever it terminates within fuel
    and no untyped ArrayField TypeError intervenes - raises an Invalid. -/
theorem c3_serialize_never_invalid_validate_raises :
    ∀ (fuel : Nat) (implicit : Bool) (cls : SchemaClass) (store : Store),
      okOrFuel (serializeInstF fuel implicit cls store)
      ∧ (∀ k fs, (k, fs) ∈ cls → fs.req = true →
          getattrF store k fs = .vnone →
          (∀ r, validateInstF fuel cls store ≠ .ok r)
          ∧ (validateInstF fuel cls store ≠ .error .fuelOut →
             validateInstF fuel cls store ≠ .error .typeErr →
             ∃ e, validateInstF fuel cls store = .error e ∧
               e.isInvalid = true)) := by
  intro fuel implicit cls store
  constructor
  · exact (serialize_no_real_errors fuel).2.2.2.1 implicit cls store
  · intro k fs hc hreq hget
    have hnotok : ∀ r, validateInstF fuel cls store ≠ .ok r := by
      intro r h
      cases fuel with
      | zero => exact Except.noConfusion h
      | succ f =>
          simp only [validateInstF] at h
          cases h1 : validateFieldsF f cls store with
          | error e => simp [h1, bind, Except.bind] at h
          | ok bs =>
              exact requiredNone_fields_never_ok f cls store k fs hc hreq
                hget bs h1
    refine ⟨hnotok, fun hnf hnt => ?_⟩
    cases hr : validateInstF fuel cls store with
    | ok r => exact absurd hr (hnotok r)
    | error e =>
        rcases (validate_err_classified fuel).1 cls store e hr with
          hinv | hfuel | htype
        · exact ⟨e, rfl, hinv⟩
        · subst hfuel
          exact absurd hr hnf
        · subst htype
          exact absurd hr hnt

/-- Witness for C3 at the spec example: a schema with an optional cool and
    a required bad field, constructed from a source providing only cool,
    serializes with implicit nulls but fails validation with an Invalid. -/
theorem c3_serialize_never_invalid_validate_raises_witness :
    serializeInstF 5 true coolBadCls
      [(rawInputName, .vdict [(nm "cool", .vint 1)]), (nm "cool", .vint 1)]
      = .ok [(nm "cool", Value.vint 1)]
    ∧ (∃ e, validateInstF 5 coolBadCls
        [(rawInputName, .vdict [(nm "cool", .vint 1)]), (nm "cool", .vint 1)]
        = .error e ∧ e.isInvalid = true) :=
  ⟨rfl,
   ((c3_serialize_never_invalid_validate_raises 5 true coolBadCls
      [(rawInputName, .vdict [(nm "cool", .vint 1)]),
       (nm "cool", .vint 1)]).2 (nm "bad") (.intF true .snone)
      (List.mem_cons_of_mem _ (List.mem_cons_self _ _)) rfl rfl).2
     (by
       intro h
       injection h with he
       exact Err.noConfusion he)
     (by
       intro h
       injection h with he
       exact Err.noConfusion he)⟩

/-! ## C8: the Many collapse rule -/

/-- C8: for every Many node, the evaluated arguments are collapsed by the
    rule: drop Nones; if more than one argument remains they form the list;
    if exactly one remains and it is a sequence, that sequence is the list;
    if exactly one scalar remains it is wrapped; if none remain the list is
    empty; then the subnode is applied to each element.  In particular,
    Many(Int, Get("together")) applied to a source holding [1, 2, 3] under
    the key together yields [1, 2, 3]. -/
theorem c8_many_collapse_rule :
    (∀ ca : List Value, manyItems true ca = manyRule ca)
    ∧ (∀ (k : CoerceK) (kreq : Bool) (args : List Transform) (source : Value)
       (ca : List Value),
       evalArgs args source = .ok ca →
       evalT (.tmany k kreq args) source =
         (manyApply k kreq (manyRule ca)).map Value.vlist)
    ∧ evalT (.tmany .ckInt false [.tget [nm "together"] false])
        (.vdict [(nm "together", .vlist [.vint 1, .vint 2, .vint 3])])
      = .ok (.vlist [.vint 1, .vint 2, .vint 3]) := by
  have hrule : ∀ ca : List Value, manyItems true ca = manyRule ca := by
    intro ca
    simp only [manyItems, manyRule, if_true]
  refine ⟨hrule, ?_, rfl⟩
  intro k kreq args source ca hargs
  simp only [evalT, hargs, bind, Except.bind, hrule ca]
  cases manyApply k kreq (manyRule ca) <;> rfl

/-! ## C5: a nested instance whose sub-fields are all null serializes to
    omission of the parent key -/

theorem serialize_keys_subset :
    ∀ (fuel : Nat) (implicit : Bool) (cls : SchemaClass) (store : Store)
      (out : List (Name × Value)),
      serializeInstF fuel implicit cls store = .ok out →
      ∀ k w, (k, w) ∈ out → ∃ fs, (k, fs) ∈ cls := by
  intro fuel
  induction fuel with
  | zero =>
      intro implicit cls store out h
      simp [serializeInstF] at h
  | succ f ih =>
      intro implicit cls store out h k w hmem
      match cls with
      | [] =>
          simp only [serializeInstF, pure, Except.pure, Except.ok.injEq] at h
          subst h
          simp at hmem
      | (k0, fs0) :: rest =>
          simp only [serializeInstF] at h
          cases h1 : fieldSerializeF f implicit k0 fs0
              (getattrF store k0 fs0) with
          | error e => simp [h1, bind, Except.bind] at h
          | ok w1 =>
              simp only [h1, bind, Except.bind] at h
              cases h2 : serializeValF f implicit w1 with
              | error e => simp [h2, bind, Except.bind] at h
              | ok w2 =>
                  simp only [h2, bind, Except.bind] at h
                  cases h3 : serializeInstF f implicit rest store with
                  | error e => simp [h3, bind, Except.bind] at h
                  | ok rest' =>
                      simp only [h3, bind, Except.bind, pure, Except.pure,
                        Except.ok.injEq] at h
                      by_cases hn : (implicit && nullishV implicit w2) = true
                      · rw [if_pos hn] at h
                        subst h
                        obtain ⟨fs, hfs⟩ := ih implicit rest store rest' h3 k w hmem
                        exact ⟨fs, List.mem_cons_of_mem _ hfs⟩
                      · rw [if_neg hn] at h
                        subst h
                        rcases List.mem_cons.mp hmem with heq | hmem2
                        · injection heq with hk hw
                          subst hk
                          exact ⟨fs0, List.mem_cons_self _ _⟩
                        · obtain ⟨fs, hfs⟩ :=
                            ih implicit rest store rest' h3 k w hmem2
                          exact ⟨fs, List.mem_cons_of_mem _ hfs⟩

theorem pipeline_none (f : Nat) (field : Name) (fs : FieldSpec) :
    (∃ w w2, fieldSerializeF f true field fs .vnone = .ok w ∧
        serializeValF f true w = .ok w2 ∧ nullishV true w2 = true)
    ∨ fieldSerializeF f true field fs .vnone = .error .fuelOut
    ∨ (∃ w, fieldSerializeF f true field fs .vnone = .ok w ∧
        serializeValF f true w = .error .fuelOut) := by
  cases f with
  | zero => exact Or.inr (Or.inl rfl)
  | succ f1 =>
      cases fs with
      | boolF r d => exact Or.inl ⟨.vnone, .vnone, rfl, rfl, rfl⟩
      | intF r d => exact Or.inl ⟨.vnone, .vnone, rfl, rfl, rfl⟩
      | numF r d => exact Or.inl ⟨.vnone, .vnone, rfl, rfl, rfl⟩
      | unicodeF s r d => exact Or.inl ⟨.vnone, .vnone, rfl, rfl, rfl⟩
      | arrayF e r d => exact Or.inl ⟨.vnone, .vnone, rfl, rfl, rfl⟩
      | objectF r d =>
          cases f1 with
          | zero => exact Or.inr (Or.inl rfl)
          | succ f2 =>
              exact Or.inl ⟨.vdict [], .vdict [], rfl, rfl, rfl⟩
      | subF c r d =>
          cases f1 with
          | zero => exact Or.inr (Or.inl rfl)
          | succ f2 =>
              exact Or.inl ⟨.vdict [], .vdict [], rfl, rfl, rfl⟩

theorem allnull_serializes_empty :
    ∀ (fuel : Nat) (cls : SchemaClass) (store : Store),
      (∀ n fs, (n, fs) ∈ cls → getattrF store n fs = .vnone) →
      serializeInstF fuel true cls store = .ok [] ∨
      serializeInstF fuel true cls store = .error .fuelOut := by
  intro fuel
  induction fuel with
  | zero => intro cls store hnull; right; rfl
  | succ f ih =>
      intro cls store hnull
      match cls with
      | [] => left; rfl
      | (k0, fs0) :: rest =>
          have hget : getattrF store k0 fs0 = .vnone :=
            hnull k0 fs0 (List.mem_cons_self _ _)
          have hrest : ∀ n fs, (n, fs) ∈ rest → getattrF store n fs = .vnone :=
            fun n fs hmem => hnull n fs (List.mem_cons_of_mem _ hmem)
          rcases pipeline_none f k0 fs0 with
            ⟨w, w2, hw, hw2, hnl⟩ | hbad | ⟨w, hw, hbad2⟩
          · simp only [serializeInstF, hget, hw, hw2, bind, Except.bind]
            rcases ih rest store hrest with hok | hfuel
            · rw [hok]
              left
              simp [hnl, pure, Except.pure]
            · rw [hfuel]
              right
              rfl
          · right
            simp [serializeInstF, hget, hbad, bind, Except.bind]
          · right
            simp [serializeInstF, hget, hw, hbad2, bind, Except.bind]

/-- C5: a Subschema field whose stored nested instance has every sub-field
    reading as null serializes, under implicit nulls, to omission of the
    parent key entirely: the nested serialization drops every sub-key, the
    all-nullish collapse turns the result into an empty dict, and the outer
    serializer drops the resulting empty value. -/
theorem c5_nested_all_null_collapses :
    ∀ (fuel : Nat) (cls : SchemaClass) (store : Store) (k : Name)
      (subCls : SchemaClass) (r : Bool) (d : Scalar) (innerStore : Store)
      (out : List (Name × Value)),
      (cls.map Prod.fst).Nodup →
      (k, FieldSpec.subF subCls r d) ∈ cls →
      lookupA store k = some (.vinst subCls innerStore) →
      (∀ n fs2, (n, fs2) ∈ subCls → getattrF innerStore n fs2 = .vnone) →
      serializeInstF fuel true cls store = .ok out →
      ∀ w, (k, w) ∉ out := by
  intro fuel
  induction fuel with
  | zero =>
      intro cls store k subCls r d innerStore out hnd hc hl hnull h
      simp [serializeInstF] at h
  | succ f ih =>
      intro cls store k subCls r d innerStore out hnd hc hl hnull h w hmem
      match cls with
      | [] => simp at hc
      | (k0, fs0) :: rest =>
          simp only [serializeInstF] at h
          rcases List.mem_cons.mp hc with heq | hc2
          · injection heq with hk hfs
            subst hk
            subst hfs
            have hnd2 : (k :: rest.map Prod.fst).Nodup := hnd
            obtain ⟨hnotin, hndrest⟩ := List.nodup_cons.mp hnd2
            have hget : getattrF store k (.subF subCls r d)
                = .vinst subCls innerStore := by
              simp [getattrF, hl, Value.isNone]
            rw [hget] at h
            cases f with
            | zero => simp [fieldSerializeF, bind, Except.bind,
                serializeValF] at h
            | succ f2 =>
                cases f2 with
                | zero =>
                    simp [fieldSerializeF, serializeValF, bind,
                      Except.bind] at h
                | succ f3 =>
                    rcases allnull_serializes_empty f3 subCls innerStore
                      hnull with hsub | hsub
                    · have hser : serializeValF (f3 + 1) true
                          (Value.vinst subCls innerStore)
                          = .ok (.vdict []) := by
                        simp only [serializeValF, hsub, Except.map]
                      have hfield : fieldSerializeF (f3 + 2) true k
                          (.subF subCls r d) (.vinst subCls innerStore)
                          = .ok (.vdict []) := by
                        simp only [fieldSerializeF, hser, bind, Except.bind]
                        rfl
                      rw [hfield] at h
                      simp only [bind, Except.bind] at h
                      have hval : serializeValF (f3 + 2) true
                          (Value.vdict []) = .ok (.vdict []) := rfl
                      rw [hval] at h
                      cases h3 : serializeInstF (f3 + 2) true rest store with
                      | error e => simp [h3, bind, Except.bind] at h
                      | ok rest' =>
                          simp only [h3, bind, Except.bind, pure,
                            Except.pure, Except.ok.injEq] at h
                          rw [if_pos (by rfl)] at h
                          subst h
                          obtain ⟨fs, hfs⟩ := serialize_keys_subset (f3 + 2)
                            true rest store rest' h3 k w hmem
                          exact hnotin
                            (List.mem_map.mpr ⟨(k, fs), hfs, rfl⟩)
                    · have hser : serializeValF (f3 + 1) true
                          (Value.vinst subCls innerStore)
                          = .error .fuelOut := by
                        simp only [serializeValF, hsub, Except.map]
                      have hfield : fieldSerializeF (f3 + 2) true k
                          (.subF subCls r d) (.vinst subCls innerStore)
                          = .error .fuelOut := by
                        simp only [fieldSerializeF, hser, bind, Except.bind]
                      rw [hfield] at h
                      simp only [bind, Except.bind] at h
                      exact Except.noConfusion h
          · cases h1 : fieldSerializeF f true k0 fs0
                (getattrF store k0 fs0) with
            | error e => simp [h1, bind, Except.bind] at h
            | ok w1 =>
                simp only [h1, bind, Except.bind] at h
                cases h2 : serializeValF f true w1 with
                | error e => simp [h2, bind, Except.bind] at h
                | ok w2 =>
                    simp only [h2, bind, Except.bind] at h
                    cases h3 : serializeInstF f true rest store with
                    | error e => simp [h3, bind, Except.bind] at h
                    | ok rest' =>
                        simp only [h3, bind, Except.bind, pure, Except.pure,
                          Except.ok.injEq] at h
                        have hnd2 : (k0 :: rest.map Prod.fst).Nodup := hnd
                        obtain ⟨hnotin, hndrest⟩ := List.nodup_cons.mp hnd2
                        have hne : k ≠ k0 := by
                          intro hkk
                          subst hkk
                          exact hnotin (List.mem_map.mpr
                            ⟨(k, .subF subCls r d), hc2, rfl⟩)
                        have htail := ih rest store k subCls r d innerStore
                          rest' hndrest hc2 hl hnull h3 w
                        by_cases hn : (true && nullishV true w2) = true
                        · rw [if_pos hn] at h
                          subst h
                          exact htail hmem
                        · rw [if_neg hn] at h
                          subst h
                          rcases List.mem_cons.mp hmem with heq2 | hmem2
                          · injection heq2 with hk2 hw2
                            exact hne hk2
                          · exact htail hmem2

/-- Witness for C5 at the Podunk example: the town serialized with implicit
    nulls omits the captain key, whose nested instance has only null
    sub-fields. -/
theorem c5_nested_all_null_collapses_witness :
    (nm "captain", Value.vdict [])
      ∉ [(nm "name", Value.vstr (nm "Podunk"))] :=
  c5_nested_all_null_collapses 12 outerCls podunkStore (nm "captain")
    innerCls true .snone [(rawInputName, .vdict [])]
    [(nm "name", .vstr (nm "Podunk"))]
    (by decide)
    (List.mem_cons_of_mem _ (List.mem_cons_self _ _))
    rfl
    (by
      intro n fs2 hmem
      rcases List.mem_cons.mp hmem with heq | hmem2
      · injection heq with hn hfs
        subst hn
        subst hfs
        rfl
      · rcases List.mem_cons.mp hmem2 with heq | hmem3
        · injection heq with hn hfs
          subst hn
          subst hfs
          rfl
        · simp at hmem3)
    rfl
    (Value.vdict [])

/-- Witness for C8: the universal collapse rule applied at the concrete
    example input, with the evaluated arguments computed by rfl. -/
theorem c8_many_collapse_rule_witness :
    evalT (.tmany .ckInt false [.tget [nm "together"] false])
        (.vdict [(nm "together", .vlist [.vint 1, .vint 2, .vint 3])])
      = (manyApply .ckInt false
          (manyRule [.vlist [.vint 1, .vint 2, .vint 3]])).map Value.vlist :=
  c8_many_collapse_rule.2.1 .ckInt false [.tget [nm "together"] false]
    (.vdict [(nm "together", .vlist [.vint 1, .vint 2, .vint 3])])
    [.vlist [.vint 1, .vint 2, .vint 3]] rfl

/-! ## C9: the flat scalar round trip -/

theorem lookupA_setA_eq {α : Type} :
    ∀ (s : List (Name × α)) (key : Name) (w : α),
      lookupA (setA s key w) key = some w := by
  intro s key w
  induction s with
  | nil =>
      show (if key = key then some w else lookupA [] key) = some w
      rw [if_pos rfl]
  | cons p rest ih =>
      obtain ⟨k, v⟩ := p
      show lookupA (if k = key then (key, w) :: rest
        else (k, v) :: setA rest key w) key = some w
      by_cases h : k = key
      · rw [if_pos h]
        show (if key = key then some w else lookupA rest key) = some w
        rw [if_pos rfl]
      · rw [if_neg h]
        show (if k = key then some v else lookupA (setA rest key w) key)
          = some w
        rw [if_neg h]
        exact ih

theorem lookupA_setA_ne {α : Type} :
    ∀ (s : List (Name × α)) (key k : Name) (w : α), key ≠ k →
      lookupA (setA s key w) k = lookupA s k := by
  intro s key k w hne
  induction s with
  | nil =>
      show (if key = k then some w else lookupA [] k) = lookupA [] k
      rw [if_neg hne]
  | cons p rest ih =>
      obtain ⟨k0, v0⟩ := p
      show lookupA (if k0 = key then (key, w) :: rest
        else (k0, v0) :: setA rest key w) k = lookupA ((k0, v0) :: rest) k
      by_cases h0 : k0 = key
      · rw [if_pos h0]
        show (if key = k then some w else lookupA rest k)
          = if k0 = k then some v0 else lookupA rest k
        rw [if_neg hne, if_neg (h0 ▸ hne : k0 ≠ k)]
      · rw [if_neg h0]
        show (if k0 = k then some v0 else lookupA (setA rest key w) k)
          = if k0 = k then some v0 else lookupA rest k
        by_cases h1 : k0 = k
        · rw [if_pos h1, if_pos h1]
        · rw [if_neg h1, if_neg h1]
          exact ih

theorem lookupA_mem {α : Type} :
    ∀ (l : List (Name × α)) (k : Name) (v : α),
      lookupA l k = some v → (k, v) ∈ l := by
  intro l
  induction l with
  | nil => intro k v h; exact Option.noConfusion h
  | cons p rest ih =>
      intro k v h
      obtain ⟨k0, v0⟩ := p
      by_cases h0 : k0 = k
      · subst h0
        have h' : (if k0 = k0 then some v0 else lookupA rest k0) = some v := h
        rw [if_pos rfl] at h'
        injection h' with hv
        subst hv
        exact List.mem_cons_self _ _
      · have h' : (if k0 = k then some v0 else lookupA rest k) = some v := h
        rw [if_neg h0] at h'
        exact List.mem_cons_of_mem _ (ih k v h')

theorem lookupA_of_mem_nodup {α : Type} :
    ∀ (l : List (Name × α)) (k : Name) (v : α),
      (k, v) ∈ l → (l.map Prod.fst).Nodup → lookupA l k = some v := by
  intro l
  induction l with
  | nil => intro k v h _; exact absurd h (List.not_mem_nil _)
  | cons p rest ih =>
      intro k v h hnd
      obtain ⟨k0, v0⟩ := p
      have hnd2 : (k0 :: rest.map Prod.fst).Nodup := hnd
      rcases List.mem_cons.mp h with heq | hmem
      · injection heq with h1 h2
        subst h1
        subst h2
        show (if k = k then some v else lookupA rest k) = some v
        rw [if_pos rfl]
      · have hne : k0 ≠ k := by
          intro he
          subst he
          exact (List.nodup_cons.mp hnd2).1
            (List.mem_map.mpr ⟨(k0, v), hmem, rfl⟩)
        show (if k0 = k then some v0 else lookupA rest k) = some v
        rw [if_neg hne]
        exact ih k v hmem (List.nodup_cons.mp hnd2).2

theorem lookupA_isSome_of_mem_keys {α : Type} :
    ∀ (l : List (Name × α)) (k : Name),
      k ∈ l.map Prod.fst → (lookupA l k).isSome = true := by
  intro l
  induction l with
  | nil => intro k h; exact absurd h (List.not_mem_nil _)
  | cons p rest ih =>
      intro k h
      obtain ⟨k0, v0⟩ := p
      by_cases h0 : k0 = k
      · show (if k0 = k then some v0 else lookupA rest k).isSome = true
        rw [if_pos h0]
        rfl
      · show (if k0 = k then some v0 else lookupA rest k).isSome = true
        rw [if_neg h0]
        refine ih k ?_
        rcases List.mem_cons.mp h with heq | hmem
        · exact absurd heq.symm h0
        · exact hmem

theorem length_le_vsizeKVs : ∀ (kvs : List (Name × Value)),
    kvs.length ≤ vsizeKVs kvs := by
  intro kvs
  induction kvs with
  | nil => exact Nat.le_refl 0
  | cons p rest ih =>
      obtain ⟨k, v⟩ := p
      show rest.length + 1 ≤ 1 + vsize v + vsizeKVs rest
      omega

theorem pyEqGo_scalar_refl (g : Nat) (v : Value) (h : isScalarV v = true) :
    pyEqGo (g + 1) v v = true := by
  cases v with
  | vnone => rfl
  | vbool b => simp only [pyEqGo, numView, decide_eq_true_eq]
  | vint n => simp only [pyEqGo, numView, decide_eq_true_eq]
  | vfloat q => simp only [pyEqGo, numView, decide_eq_true_eq]
  | vstr s => simp only [pyEqGo, numView, decide_eq_true_eq]
  | vlist xs => exact absurd h (by simp [isScalarV])
  | vdict kvs => exact absurd h (by simp [isScalarV])
  | vinst c st => exact absurd h (by simp [isScalarV])
  | vgen st => exact absurd h (by simp [isScalarV])

theorem pyEqDictGo_lookup (d2 : List (Name × Value)) :
    ∀ (d1 : List (Name × Value)) (fuel : Nat),
      d1.length < fuel →
      (∀ p ∈ d1, isScalarV p.2 = true) →
      (∀ k v, (k, v) ∈ d1 → lookupA d2 k = some v) →
      pyEqDictGo fuel d1 d2 = true := by
  intro d1
  induction d1 with
  | nil =>
      intro fuel hf _ _
      cases fuel with
      | zero => exact absurd hf (by omega)
      | succ f => rfl
  | cons p rest ih =>
      intro fuel hf hs hl
      obtain ⟨k, v⟩ := p
      cases fuel with
      | zero => exact absurd hf (by omega)
      | succ f =>
          have hlk : lookupA d2 k = some v := hl k v (List.mem_cons_self _ _)
          have hsv : isScalarV v = true := hs (k, v) (List.mem_cons_self _ _)
          simp only [pyEqDictGo, hlk, Bool.and_eq_true]
          simp only [List.length_cons] at hf
          constructor
          · cases f with
            | zero => exact absurd hf (by omega)
            | succ f2 => exact pyEqGo_scalar_refl f2 v hsv
          · exact ih f (by omega)
              (fun q hq => hs q (List.mem_cons_of_mem _ hq))
              (fun k2 v2 h2 => hl k2 v2 (List.mem_cons_of_mem _ h2))

theorem noEscape_startsDU (k : Name) (h : noEscapeName k = true) :
    startsDU k = false := by
  cases hb : startsDU k with
  | false => rfl
  | true =>
      rw [noEscapeName, hb] at h
      exact absurd h (by simp)

theorem noEscape_dedunder (k : Name) (h : noEscapeName k = true) :
    dedunder k = k := by
  rw [noEscapeName] at h
  exact of_decide_eq_true ((Bool.and_eq_true _ _).mp h).2

theorem unicodeSerialize_id (field : Name) (v : Value) :
    unicodeSerialize field v = v := by
  cases v <;> rfl

theorem coerceSet_scalar (fuel : Nat) (fs : FieldSpec) (v : Value)
    (h : isScalarField fs = true) : coerceSetF (fuel + 1) fs v = .ok v := by
  cases fs with
  | boolF r d => rfl
  | intF r d => rfl
  | numF r d => rfl
  | unicodeF s r d => rfl
  | objectF r d => exact absurd h (by simp [isScalarField])
  | arrayF e r d => exact absurd h (by simp [isScalarField])
  | subF c r d => exact absurd h (by simp [isScalarField])

theorem setattrV_setA (fuel : Nat) (cls : SchemaClass) (store : Store)
    (n : Name) (v : Value) (st : Store) (hde : dedunder n = n)
    (hok : setattrVF fuel cls store n v = .ok st) :
    ∃ w, st = setA store n w := by
  cases fuel with
  | zero => exact Except.noConfusion hok
  | succ f =>
      cases hcl : lookupA cls n with
      | none =>
          simp only [setattrVF, hde, hcl, pure, Except.pure,
            Except.ok.injEq] at hok
          exact ⟨v, hok.symm⟩
      | some fs =>
          simp only [setattrVF, hde, hcl] at hok
          cases hco : coerceSetF f fs v with
          | error e =>
              simp only [hco, bind, Except.bind] at hok
              exact Except.noConfusion hok
          | ok w =>
              simp only [hco, bind, Except.bind, pure, Except.pure,
                Except.ok.injEq] at hok
              exact ⟨w, hok.symm⟩

theorem setattrV_scalar (fuel : Nat) (cls : SchemaClass) (store : Store)
    (n : Name) (v : Value) (st : Store) (hde : dedunder n = n)
    (hsc : ∀ fs, lookupA cls n = some fs → isScalarField fs = true)
    (hok : setattrVF fuel cls store n v = .ok st) :
    st = setA store n v := by
  cases fuel with
  | zero => exact Except.noConfusion hok
  | succ f =>
      cases hcl : lookupA cls n with
      | none =>
          simp only [setattrVF, hde, hcl, pure, Except.pure,
            Except.ok.injEq] at hok
          exact hok.symm
      | some fs =>
          simp only [setattrVF, hde, hcl] at hok
          cases f with
          | zero =>
              simp only [coerceSetF, bind, Except.bind] at hok
              exact Except.noConfusion hok
          | succ f2 =>
              rw [coerceSet_scalar f2 fs v (hsc fs hcl)] at hok
              simp only [bind, Except.bind, pure, Except.pure,
                Except.ok.injEq] at hok
              exact hok.symm

theorem initSubs_scalar (cls : SchemaClass) :
    ∀ (todo : SchemaClass) (fuel : Nat) (store st : Store),
      (∀ p ∈ todo, isScalarField p.2 = true) →
      initSubsF fuel cls todo store = .ok st → st = store := by
  intro todo
  induction todo with
  | nil =>
      intro fuel store st _ hok
      cases fuel with
      | zero => exact Except.noConfusion hok
      | succ f =>
          injection hok with h
          exact h.symm
  | cons p rest ih =>
      intro fuel store st hsc hok
      obtain ⟨k, fs⟩ := p
      cases fuel with
      | zero => exact Except.noConfusion hok
      | succ f =>
          have htail : ∀ p ∈ rest, isScalarField p.2 = true :=
            fun q hq => hsc q (List.mem_cons_of_mem _ hq)
          cases fs with
          | boolF r d => exact ih f store st htail hok
          | intF r d => exact ih f store st htail hok
          | numF r d => exact ih f store st htail hok
          | unicodeF s r d => exact ih f store st htail hok
          | objectF r d => exact ih f store st htail hok
          | arrayF e r d => exact ih f store st htail hok
          | subF c r d =>
              exact absurd (hsc (k, .subF c r d) (List.mem_cons_self _ _))
                (by simp [isScalarField])

theorem serializeVal_scalar (fuel : Nat) (implicit : Bool) (v w : Value)
    (hs : isScalarV v = true)
    (hok : serializeValF fuel implicit v = .ok w) : w = v := by
  cases fuel with
  | zero => exact Except.noConfusion hok
  | succ f =>
      cases v with
      | vnone => injection hok with h; exact h.symm
      | vbool b => injection hok with h; exact h.symm
      | vint n => injection hok with h; exact h.symm
      | vfloat q => injection hok with h; exact h.symm
      | vstr s => injection hok with h; exact h.symm
      | vlist xs => exact absurd hs (by simp [isScalarV])
      | vdict kvs => exact absurd hs (by simp [isScalarV])
      | vinst c st => exact absurd hs (by simp [isScalarV])
      | vgen st => exact absurd hs (by simp [isScalarV])

theorem fieldSerialize_scalar (fuel : Nat) (implicit : Bool) (field : Name)
    (fs : FieldSpec) (v w : Value) (hsf : isScalarField fs = true)
    (hok : fieldSerializeF fuel implicit field fs v = .ok w) : w = v := by
  cases fuel with
  | zero => exact Except.noConfusion hok
  | succ f =>
      cases fs with
      | boolF r d => injection hok with h; exact h.symm
      | intF r d => injection hok with h; exact h.symm
      | numF r d => injection hok with h; exact h.symm
      | unicodeF s r d =>
          injection hok with h
          rw [← h]
          exact unicodeSerialize_id field v
      | objectF r d => exact absurd hsf (by simp [isScalarField])
      | arrayF e r d => exact absurd hsf (by simp [isScalarField])
      | subF c r d => exact absurd hsf (by simp [isScalarField])

theorem serialize_scalar_out :
    ∀ (cls : SchemaClass) (fuel : Nat) (store : Store)
      (out : List (Name × Value)),
      (∀ p ∈ cls, isScalarField p.2 = true) →
      (∀ p ∈ cls, isScalarV (getattrF store p.1 p.2) = true) →
      serializeInstF fuel false cls store = .ok out →
      out = cls.map (fun p => (p.1, getattrF store p.1 p.2)) := by
  intro cls
  induction cls with
  | nil =>
      intro fuel store out _ _ hok
      cases fuel with
      | zero => exact Except.noConfusion hok
      | succ f =>
          injection hok with h
          exact h.symm
  | cons p rest ih =>
      intro fuel store out hsf hsv hok
      obtain ⟨k, fs⟩ := p
      cases fuel with
      | zero => exact Except.noConfusion hok
      | succ f =>
          simp only [serializeInstF] at hok
          cases h1 : fieldSerializeF f false k fs (getattrF store k fs) with
          | error e =>
              simp only [h1, bind, Except.bind] at hok
              exact Except.noConfusion hok
          | ok w =>
              simp only [h1, bind, Except.bind] at hok
              have hw : w = getattrF store k fs :=
                fieldSerialize_scalar f false k fs _ w
                  (hsf (k, fs) (List.mem_cons_self _ _)) h1
              subst hw
              cases h2 : serializeValF f false (getattrF store k fs) with
              | error e =>
                  simp only [h2, bind, Except.bind] at hok
                  exact Except.noConfusion hok
              | ok w2 =>
                  simp only [h2, bind, Except.bind] at hok
                  have hw2 : w2 = getattrF store k fs :=
                    serializeVal_scalar f false _ w2
                      (hsv (k, fs) (List.mem_cons_self _ _)) h2
                  subst hw2
                  cases h3 : serializeInstF f false rest store with
                  | error e =>
                      simp only [h3, bind, Except.bind] at hok
                      exact Except.noConfusion hok
                  | ok rest' =>
                      simp only [h3, bind, Except.bind, pure, Except.pure,
                        Bool.false_and, Bool.false_eq_true, if_false,
                        Except.ok.injEq] at hok
                      subst hok
                      rw [List.map_cons]
                      rw [ih f store rest'
                        (fun q hq => hsf q (List.mem_cons_of_mem _ hq))
                        (fun q hq => hsv q (List.mem_cons_of_mem _ hq)) h3]

theorem applyKwargs_preserves (cls : SchemaClass) :
    ∀ (kwargs : List (Name × Value)) (fuel : Nat) (store st : Store),
      (∀ p ∈ kwargs, noEscapeName p.1 = true) →
      applyKwargsF fuel cls store kwargs = .ok st →
      ∀ k, k ∉ kwargs.map Prod.fst → lookupA st k = lookupA store k := by
  intro kwargs
  induction kwargs with
  | nil =>
      intro fuel store st _ hok k _
      cases fuel with
      | zero => exact Except.noConfusion hok
      | succ f =>
          injection hok with h
          rw [h]
  | cons p rest ih =>
      intro fuel store st hne hok k hk
      obtain ⟨k0, v0⟩ := p
      cases fuel with
      | zero => exact Except.noConfusion hok
      | succ f =>
          have hne0 : noEscapeName k0 = true :=
            hne (k0, v0) (List.mem_cons_self _ _)
          have hsd : startsDU k0 = false := noEscape_startsDU k0 hne0
          have hdd : dedunder k0 = k0 := noEscape_dedunder k0 hne0
          have hnetail : ∀ q ∈ rest, noEscapeName q.1 = true :=
            fun q hq => hne q (List.mem_cons_of_mem _ hq)
          have hk0 : k ≠ k0 ∧ k ∉ rest.map Prod.fst := by
            constructor
            · intro he
              exact hk (he ▸ List.mem_cons_self k0 (rest.map Prod.fst))
            · intro hm
              exact hk (List.mem_cons_of_mem _ hm)
          simp only [applyKwargsF, hsd, Bool.false_eq_true, if_false] at hok
          by_cases hcl : (lookupA cls k0).isSome = true
          · rw [if_pos hcl] at hok
            cases hset : setattrVF f cls store k0 v0 with
            | error e =>
                simp only [hset, bind, Except.bind] at hok
                exact Except.noConfusion hok
            | ok store' =>
                simp only [hset, bind, Except.bind] at hok
                obtain ⟨w, hw⟩ := setattrV_setA f cls store k0 v0 store' hdd hset
                rw [ih f store' st hnetail hok k hk0.2, hw,
                  lookupA_setA_ne store k0 k w (fun he => hk0.1 he.symm)]
          · rw [if_neg hcl] at hok
            simp only [bind, Except.bind, pure, Except.pure] at hok
            exact ih f store st hnetail hok k hk0.2

theorem applyKwargs_writes (cls : SchemaClass)
    (hscalar : ∀ p ∈ cls, isScalarField p.2 = true) :
    ∀ (kwargs : List (Name × Value)) (fuel : Nat) (store st : Store),
      (∀ p ∈ kwargs, noEscapeName p.1 = true) →
      (kwargs.map Prod.fst).Nodup →
      applyKwargsF fuel cls store kwargs = .ok st →
      ∀ k v, (k, v) ∈ kwargs → (lookupA cls k).isSome = true →
        lookupA st k = some v := by
  intro kwargs
  induction kwargs with
  | nil =>
      intro fuel store st _ _ _ k v hm
      exact absurd hm (List.not_mem_nil _)
  | cons p rest ih =>
      intro fuel store st hne hnd hok k v hm hcls
      obtain ⟨k0, v0⟩ := p
      cases fuel with
      | zero => exact Except.noConfusion hok
      | succ f =>
          have hne0 : noEscapeName k0 = true :=
            hne (k0, v0) (List.mem_cons_self _ _)
          have hsd : startsDU k0 = false := noEscape_startsDU k0 hne0
          have hdd : dedunder k0 = k0 := noEscape_dedunder k0 hne0
          have hnetail : ∀ q ∈ rest, noEscapeName q.1 = true :=
            fun q hq => hne q (List.mem_cons_of_mem _ hq)
          have hnd2 : (k0 :: rest.map Prod.fst).Nodup := hnd
          have hndtail : (rest.map Prod.fst).Nodup :=
            (List.nodup_cons.mp hnd2).2
          simp only [applyKwargsF, hsd, Bool.false_eq_true, if_false] at hok
          rcases List.mem_cons.mp hm with heq | hmem
          · injection heq with h1 h2
            subst h1
            subst h2
            rw [if_pos hcls] at hok
            cases hset : setattrVF f cls store k v with
            | error e =>
                simp only [hset, bind, Except.bind] at hok
                exact Except.noConfusion hok
            | ok store' =>
                simp only [hset, bind, Except.bind] at hok
                have hst' : store' = setA store k v :=
                  setattrV_scalar f cls store k v store' hdd
                    (fun fs hfs => hscalar (k, fs) (lookupA_mem cls k fs hfs))
                    hset
                rw [applyKwargs_preserves cls rest f store' st hnetail hok k
                    (List.nodup_cons.mp hnd2).1,
                  hst', lookupA_setA_eq]
          · by_cases hcl0 : (lookupA cls k0).isSome = true
            · rw [if_pos hcl0] at hok
              cases hset : setattrVF f cls store k0 v0 with
              | error e =>
                  simp only [hset, bind, Except.bind] at hok
                  exact Except.noConfusion hok
              | ok store' =>
                  simp only [hset, bind, Except.bind] at hok
                  exact ih f store' st hnetail hndtail hok k v hmem hcls
            · rw [if_neg hcl0] at hok
              simp only [bind, Except.bind, pure, Except.pure] at hok
              exact ih f store st hnetail hndtail hok k v hmem hcls

/-- C9 counterexample: a schema whose only field is an IntegerField with
    default 5, constructed from the flat dict mapping x to None, serializes
    with implicit_nulls false to the dict mapping x to 5, because the
    descriptor read materializes the default in place of the stored None;
    the result is not equal to the input dict. -/
theorem c9_roundtrip_counterexample :
    ((constructInstF 10 defaultedCls [(nm "x", Value.vnone)]).bind
        (fun st => serializeInstF 10 false defaultedCls st))
      = .ok [(nm "x", Value.vint 5)]
    ∧ pyDictEq [(nm "x", Value.vint 5)] [(nm "x", Value.vnone)] = false :=
  ⟨rfl, rfl⟩

/-- C9 (amended): for a schema whose declared fields are all scalar and
    plainly named, constructing an instance from a flat dict whose keys are
    exactly the field names and whose values are scalars, then serializing
    it with implicit_nulls false, returns a dict equal (as Python dicts) to
    the original input - provided every None-valued input key names a field
    whose default is None, since the descriptor read otherwise replaces the
    stored None by the field default. -/
theorem c9_scalar_roundtrip_amended
    (fuel : Nat) (cls : SchemaClass) (kwargs : List (Name × Value))
    (st : Store) (out : List (Name × Value))
    (hscalar : ∀ p ∈ cls, isScalarField p.2 = true)
    (hplain : ∀ p ∈ kwargs, noEscapeName p.1 = true)
    (hndc : (cls.map Prod.fst).Nodup)
    (hndk : (kwargs.map Prod.fst).Nodup)
    (hperm : List.Perm (kwargs.map Prod.fst) (cls.map Prod.fst))
    (hvals : ∀ p ∈ kwargs, isScalarV p.2 = true)
    (hdflt : ∀ p ∈ kwargs, p.2 = Value.vnone →
        ∀ fs, lookupA cls p.1 = some fs → fs.dfltOf = Scalar.snone)
    (hcons : constructInstF fuel cls kwargs = .ok st)
    (hser : serializeInstF fuel false cls st = .ok out) :
    pyDictEq out kwargs = true := by
  cases fuel with
  | zero => exact Except.noConfusion hcons
  | succ f =>
      simp only [constructInstF] at hcons
      cases hinit : initSubsF f cls cls [(rawInputName, .vdict kwargs)] with
      | error e =>
          simp only [hinit, bind, Except.bind] at hcons
          exact Except.noConfusion hcons
      | ok s1 =>
          simp only [hinit, bind, Except.bind] at hcons
          have hs1 : s1 = [(rawInputName, .vdict kwargs)] :=
            initSubs_scalar cls cls f _ s1 hscalar hinit
          subst hs1
          have hwrites : ∀ k v, (k, v) ∈ kwargs → lookupA st k = some v := by
            intro k v hmv
            have hkk : k ∈ kwargs.map Prod.fst :=
              List.mem_map.mpr ⟨(k, v), hmv, rfl⟩
            have hkc : k ∈ cls.map Prod.fst := hperm.mem_iff.mp hkk
            exact applyKwargs_writes cls hscalar kwargs f _ st hplain hndk
              hcons k v hmv (lookupA_isSome_of_mem_keys cls k hkc)
          have hfield : ∀ q ∈ cls,
              lookupA kwargs q.1 = some (getattrF st q.1 q.2)
              ∧ isScalarV (getattrF st q.1 q.2) = true := by
            intro q hq
            obtain ⟨k, fs⟩ := q
            have hkc : k ∈ cls.map Prod.fst :=
              List.mem_map.mpr ⟨(k, fs), hq, rfl⟩
            have hkk : k ∈ kwargs.map Prod.fst := hperm.mem_iff.mpr hkc
            obtain ⟨p, hp, hpk⟩ := List.mem_map.mp hkk
            obtain ⟨k2, v⟩ := p
            have hpk2 : k2 = k := hpk
            subst hpk2
            have hlkw : lookupA kwargs k2 = some v :=
              lookupA_of_mem_nodup kwargs k2 v hp hndk
            have hlst : lookupA st k2 = some v := hwrites k2 v hp
            have hget : getattrF st k2 fs = v := by
              simp only [getattrF, hlst]
              cases hvn : v.isNone with
              | true =>
                  have hv : v = .vnone := by
                    cases v <;> first | rfl | exact Bool.noConfusion hvn
                  rw [if_pos rfl, hdflt (k2, v) hp hv fs
                    (lookupA_of_mem_nodup cls k2 fs hq hndc), hv]
                  rfl
              | false =>
                  rw [if_neg Bool.false_ne_true]
            refine ⟨?_, ?_⟩
            · rw [hget]
              exact hlkw
            · rw [hget]
              exact hvals (k2, v) hp
          have hout : out = cls.map (fun p => (p.1, getattrF st p.1 p.2)) :=
            serialize_scalar_out cls (f + 1) st out hscalar
              (fun q hq => (hfield q hq).2) hser
          have hmem_out : ∀ k v, (k, v) ∈ out → lookupA kwargs k = some v := by
            intro k v hmv
            rw [hout] at hmv
            obtain ⟨q, hq, hqe⟩ := List.mem_map.mp hmv
            injection hqe with h1 h2
            subst h1
            subst h2
            exact (hfield q hq).1
          have hsc_out : ∀ p ∈ out, isScalarV p.2 = true := by
            intro p hp
            rw [hout] at hp
            obtain ⟨q, hq, hqe⟩ := List.mem_map.mp hp
            rw [← hqe]
            exact (hfield q hq).2
          have hlen : out.length = kwargs.length := by
            rw [hout, List.length_map]
            have hl := hperm.length_eq
            simp only [List.length_map] at hl
            omega
          rw [pyDictEq, pyEq]
          simp only [pyEqGo, numView, vsize, Bool.and_eq_true,
            decide_eq_true_eq]
          constructor
          · exact hlen
          · refine pyEqDictGo_lookup kwargs out _ ?_ hsc_out hmem_out
            have h1 := length_le_vsizeKVs out
            omega

/-- Witness for the amended C9 round trip: a two-field scalar schema
    constructed from a flat dict given in the opposite declaration order
    serializes back to a Python-equal dict. -/
theorem c9_scalar_roundtrip_amended_witness :
    pyDictEq [(nm "a", Value.vint 7), (nm "b", Value.vstr (nm "hi"))]
      [(nm "b", Value.vstr (nm "hi")), (nm "a", Value.vint 7)] = true :=
  c9_scalar_roundtrip_amended 6
    [(nm "a", .intF false .snone), (nm "b", .unicodeF false false .snone)]
    [(nm "b", .vstr (nm "hi")), (nm "a", .vint 7)]
    [(rawInputName,
      .vdict [(nm "b", .vstr (nm "hi")), (nm "a", .vint 7)]),
     (nm "b", .vstr (nm "hi")), (nm "a", .vint 7)]
    [(nm "a", Value.vint 7), (nm "b", Value.vstr (nm "hi"))]
    (by decide) (by decide) (by decide) (by decide) (by decide) (by decide)
    (by
      intro p hp hnone fs hfs
      rcases List.mem_cons.mp hp with h | h
      · rw [h] at hnone
        exact Value.noConfusion hnone
      · rcases List.mem_cons.mp h with h2 | h2
        · rw [h2] at hnone
          exact Value.noConfusion hnone
        · exact absurd h2 (List.not_mem_nil p))
    rfl rfl

/-! ## C2: the order and content of field discovery -/

theorem lexLe_cons (a b : Char) (as_ bs : Name) :
    lexLe (a :: as_) (b :: bs) =
      (decide (a.toNat < b.toNat)
        || (decide (a.toNat = b.toNat) && lexLe as_ bs)) := by
  show (if a.toNat < b.toNat then true
    else if a.toNat = b.toNat then lexLe as_ bs else false) = _
  by_cases h1 : a.toNat < b.toNat
  · rw [if_pos h1]
    simp [h1]
  · rw [if_neg h1]
    by_cases h2 : a.toNat = b.toNat
    · rw [if_pos h2]
      simp [h1, h2]
    · rw [if_neg h2]
      simp [h1, h2]

theorem lexLe_total : ∀ a b : Name, lexLe a b = true ∨ lexLe b a = true := by
  intro a
  induction a with
  | nil => intro b; left; rfl
  | cons c as_ ih =>
      intro b
      cases b with
      | nil => right; rfl
      | cons d bs =>
          simp only [lexLe_cons, Bool.or_eq_true, Bool.and_eq_true,
            decide_eq_true_eq]
          rcases Nat.lt_trichotomy c.toNat d.toNat with h | h | h
          · left; left; exact h
          · rcases ih bs with h' | h'
            · left; right; exact ⟨h, h'⟩
            · right; right; exact ⟨h.symm, h'⟩
          · right; left; exact h

theorem lexLe_trans : ∀ a b c : Name,
    lexLe a b = true → lexLe b c = true → lexLe a c = true := by
  intro a
  induction a with
  | nil => intro b c _ _; rfl
  | cons x as_ ih =>
      intro b c hab hbc
      cases b with
      | nil => exact Bool.noConfusion hab
      | cons y bs =>
          cases c with
          | nil => exact Bool.noConfusion hbc
          | cons z cs =>
              simp only [lexLe_cons, Bool.or_eq_true, Bool.and_eq_true,
                decide_eq_true_eq] at hab hbc ⊢
              rcases hab with h1 | ⟨h1, h1'⟩
              · rcases hbc with h2 | ⟨h2, h2'⟩
                · left; omega
                · left; omega
              · rcases hbc with h2 | ⟨h2, h2'⟩
                · left; omega
                · right; exact ⟨by omega, ih bs cs h1' h2'⟩

theorem insertName_perm (n : Name) :
    ∀ l, List.Perm (insertName n l) (n :: l) := by
  intro l
  induction l with
  | nil => exact List.Perm.refl _
  | cons m rest ih =>
      show List.Perm
        (if lexLe n m then n :: m :: rest else m :: insertName n rest)
        (n :: m :: rest)
      by_cases h : lexLe n m = true
      · rw [if_pos h]
      · rw [if_neg h]
        exact (ih.cons m).trans (List.Perm.swap n m rest)

theorem sortNames_perm : ∀ l, List.Perm (sortNames l) l := by
  intro l
  induction l with
  | nil => exact List.Perm.refl _
  | cons n rest ih =>
      exact (insertName_perm n (sortNames rest)).trans (ih.cons n)

theorem insertName_sorted (n : Name) :
    ∀ l, l.Pairwise (fun a b => lexLe a b = true) →
      (insertName n l).Pairwise (fun a b => lexLe a b = true) := by
  intro l
  induction l with
  | nil =>
      intro _
      exact List.pairwise_singleton _ n
  | cons m rest ih =>
      intro hp
      obtain ⟨hm, hrest⟩ := List.pairwise_cons.mp hp
      show (if lexLe n m then n :: m :: rest
        else m :: insertName n rest).Pairwise _
      by_cases h : lexLe n m = true
      · rw [if_pos h]
        refine List.pairwise_cons.mpr ⟨?_, hp⟩
        intro b hb
        rcases List.mem_cons.mp hb with heq | hbm
        · rw [heq]
          exact h
        · exact lexLe_trans n m b h (hm b hbm)
      · rw [if_neg h]
        have hnm : lexLe m n = true := (lexLe_total n m).resolve_left h
        refine List.pairwise_cons.mpr ⟨?_, ih hrest⟩
        intro b hb
        have hb' := (insertName_perm n rest).mem_iff.mp hb
        rcases List.mem_cons.mp hb' with heq | hbm
        · rw [heq]
          exact hnm
        · exact hm b hbm

theorem sortNames_sorted :
    ∀ l, (sortNames l).Pairwise (fun a b => lexLe a b = true) := by
  intro l
  induction l with
  | nil => exact List.Pairwise.nil
  | cons n rest ih => exact insertName_sorted n (sortNames rest) ih

theorem filterMap_fst_sublist (g : Name → Option (Name × Name))
    (hg : ∀ n p, g n = some p → p.1 = n) :
    ∀ l : List Name, ((l.filterMap g).map Prod.fst).Sublist l := by
  intro l
  induction l with
  | nil => exact List.Sublist.refl []
  | cons n rest ih =>
      cases hgn : g n with
      | none =>
          simp only [List.filterMap_cons, hgn]
          exact ih.cons n
      | some p =>
          simp only [List.filterMap_cons, hgn, List.map_cons]
          rw [hg n p hgn]
          exact ih.cons₂ n

/-- C2 (amended): field discovery walks the merged class namespace in the
    lexicographic order of the internal attribute names (dir() sorts), not
    in declaration order; it records exactly the field-like attributes,
    each internal attribute exactly once, and assigns each discovered
    attribute the de-escaped external name dedunder of its internal name. -/
theorem c2_discovery_order_amended (ns : List (Name × Bool))
    (hnd : (ns.map Prod.fst).Nodup) :
    ((discoverPairs ns).map Prod.fst).Pairwise (fun a b => lexLe a b = true)
    ∧ ((discoverPairs ns).map Prod.fst).Nodup
    ∧ (∀ p ∈ discoverPairs ns, p.2 = dedunder p.1 ∧ (p.1, true) ∈ ns)
    ∧ (∀ i, (i, true) ∈ ns → (i, dedunder i) ∈ discoverPairs ns) := by
  have hg : ∀ n p, (match lookupA ns n with
      | some true => some (n, dedunder n)
      | _ => (Option.none : Option (Name × Name))) = some p → p.1 = n := by
    intro n p hp
    cases hlk : lookupA ns n with
    | none =>
        simp only [hlk] at hp
        exact Option.noConfusion hp
    | some b =>
        cases b with
        | false =>
            simp only [hlk] at hp
            exact Option.noConfusion hp
        | true =>
            simp only [hlk] at hp
            injection hp with h
            rw [← h]
  have hsub : ((discoverPairs ns).map Prod.fst).Sublist (dirNames ns) :=
    filterMap_fst_sublist _ hg (dirNames ns)
  refine ⟨?_, ?_, ?_, ?_⟩
  · exact (sortNames_sorted (ns.map Prod.fst)).sublist hsub
  · exact ((sortNames_perm (ns.map Prod.fst)).nodup_iff.mpr hnd).sublist hsub
  · intro p hp
    obtain ⟨n, hn, hfn⟩ := List.mem_filterMap.mp hp
    cases hlk : lookupA ns n with
    | none =>
        simp only [hlk] at hfn
        exact Option.noConfusion hfn
    | some b =>
        cases b with
        | false =>
            simp only [hlk] at hfn
            exact Option.noConfusion hfn
        | true =>
            simp only [hlk] at hfn
            injection hfn with h
            rw [← h]
            exact ⟨rfl, lookupA_mem ns n true hlk⟩
  · intro i hi
    have hlk : lookupA ns i = some true :=
      lookupA_of_mem_nodup ns i true hi hnd
    have hmem : i ∈ dirNames ns :=
      (sortNames_perm (ns.map Prod.fst)).mem_iff.mpr
        (List.mem_map.mpr ⟨(i, true), hi, rfl⟩)
    refine List.mem_filterMap.mpr ⟨i, hmem, ?_⟩
    simp only [hlk]

/-- Witness for the amended C2 discovery characterization at a namespace
    holding a plain field, a non-field attribute and an escaped field. -/
theorem c2_discovery_order_amended_witness :
    ((discoverPairs c2ns).map Prod.fst).Pairwise (fun a b => lexLe a b = true)
    ∧ ((discoverPairs c2ns).map Prod.fst).Nodup
    ∧ (∀ p ∈ discoverPairs c2ns, p.2 = dedunder p.1 ∧ (p.1, true) ∈ c2ns)
    ∧ (∀ i, (i, true) ∈ c2ns → (i, dedunder i) ∈ discoverPairs c2ns) :=
  c2_discovery_order_amended c2ns (by decide)

/-- C2 counterexample: with an inherited field b and a subclass-declared
    field a, discovery returns the alphabetical list [a, b], not the
    inherited-then-declared order [b, a], because dir() sorts attribute
    names. -/
theorem c2_declaration_order_counterexample :
    discoverNames (mergeNS [(nm "b", true)] [(nm "a", true)])
        = [nm "a", nm "b"]
    ∧ [nm "a", nm "b"] ≠ [nm "b", nm "a"] :=
  ⟨by decide, by decide⟩

/-! ## C7: escaped reserved names resolve to the external name everywhere -/

theorem dropAfterDU_cons_none (c : Char) (rest : List Char)
    (h : (dropAfterDU (c :: rest)).isSome = false) :
    (dropAfterDU rest).isSome = false := by
  match rest with
  | [] => rfl
  | [d] => rfl
  | d :: e :: tt =>
      by_cases hc : c = '_' ∧ d = '_'
      · rw [show dropAfterDU (c :: d :: e :: tt) = some (e :: tt) from by
          rw [dropAfterDU]
          exact if_pos hc] at h
        exact Bool.noConfusion h
      · rw [show dropAfterDU (c :: d :: e :: tt) = dropAfterDU (d :: e :: tt)
          from by
          rw [dropAfterDU]
          exact if_neg hc] at h
        exact h

theorem dropAfterDU_append (cs : List Char) :
    ∀ ext : List Char, (dropAfterDU cs).isSome = false →
      cs.getLast? ≠ some '_' →
      dropAfterDU (cs ++ '_' :: '_' :: ext) = some ext := by
  induction cs using dropAfterDU.induct with
  | case1 =>
      intro ext _ _
      show dropAfterDU ('_' :: '_' :: ext) = some ext
      rw [dropAfterDU]
      exact if_pos ⟨rfl, rfl⟩
  | case2 c =>
      intro ext _ hl
      have hc : ¬(c = '_' ∧ ('_' : Char) = '_') := by
        rintro ⟨h1, _⟩
        subst h1
        exact hl rfl
      show dropAfterDU (c :: '_' :: '_' :: ext) = some ext
      rw [dropAfterDU, if_neg hc, dropAfterDU]
      exact if_pos ⟨rfl, rfl⟩
  | case3 c1 c2 rest hu =>
      intro ext hnd _
      rw [show dropAfterDU (c1 :: c2 :: rest) = some rest from by
        rw [dropAfterDU]
        exact if_pos hu] at hnd
      exact Bool.noConfusion hnd
  | case4 c1 c2 rest hu ih =>
      intro ext hnd hl
      show dropAfterDU (c1 :: c2 :: (rest ++ '_' :: '_' :: ext)) = some ext
      rw [dropAfterDU, if_neg hu]
      refine ih ext ?_ ?_
      · rw [show dropAfterDU (c1 :: c2 :: rest) = dropAfterDU (c2 :: rest)
          from by
          rw [dropAfterDU]
          exact if_neg hu] at hnd
        exact hnd
      · intro h
        exact hl (by rw [List.getLast?_cons_cons]; exact h)

theorem completeDU_append (c : Char) (cs ext : List Char)
    (hnd : (dropAfterDU cs).isSome = false) (hl : cs.getLast? ≠ some '_') :
    completeDU (c :: cs ++ '_' :: '_' :: ext) = some ext := by
  show dropAfterDU (cs ++ '_' :: '_' :: ext) = some ext
  exact dropAfterDU_append cs ext hnd hl

theorem duSubGo_noDU : ∀ (fuel : Nat) (s : List Char),
    (dropAfterDU s).isSome = false → duSubGo fuel s = s := by
  intro fuel
  induction fuel with
  | zero => intro s _; rfl
  | succ f ih =>
      intro s hs
      match s with
      | [] => rfl
      | c :: rest =>
          have hrest : (dropAfterDU rest).isSome = false :=
            dropAfterDU_cons_none c rest hs
          have hcd : completeDU rest = Option.none := by
            match rest with
            | [] => rfl
            | d :: tail =>
                show dropAfterDU tail = Option.none
                cases ho : dropAfterDU tail with
                | none => rfl
                | some r =>
                    have h2 := dropAfterDU_cons_none d tail hrest
                    rw [ho] at h2
                    exact Bool.noConfusion h2
          by_cases hc : c = '_'
          · simp only [duSubGo, if_pos hc, hcd, ih rest hrest]
          · simp only [duSubGo, if_neg hc, ih rest hrest]

theorem duSubGo_head (fuel : Nat) (rest suffix : List Char)
    (h : completeDU rest = some suffix) :
    duSubGo (fuel + 1) ('_' :: rest) = duSubGo fuel suffix := by
  simp only [duSubGo, h, eq_self_iff_true, if_true]

theorem dedunder_mangled (clsname ext : List Char)
    (hne : clsname ≠ [])
    (hlastc : clsname.getLast? ≠ some '_')
    (hclsnd : (dropAfterDU clsname).isSome = false)
    (hextnd : (dropAfterDU ext).isSome = false) :
    dedunder ('_' :: clsname ++ '_' :: '_' :: ext) = ext := by
  match clsname, hne with
  | c :: cs, _ =>
      have hcs : (dropAfterDU cs).isSome = false :=
        dropAfterDU_cons_none c cs hclsnd
      have hlcs : cs.getLast? ≠ some '_' := by
        cases cs with
        | nil => intro h; exact Option.noConfusion h
        | cons d tl =>
            intro h
            exact hlastc (by rw [List.getLast?_cons_cons]; exact h)
      have hcd : completeDU (c :: cs ++ '_' :: '_' :: ext) = some ext :=
        completeDU_append c cs ext hcs hlcs
      have hdm : duMatch ('_' :: (c :: cs) ++ '_' :: '_' :: ext) = true := by
        show (decide (('_' : Char) = '_')
          && (completeDU (c :: cs ++ '_' :: '_' :: ext)).isSome) = true
        rw [hcd]
        rfl
      rw [dedunder, if_pos hdm, duSub]
      show duSubGo ((('_' :: c :: cs) ++ '_' :: '_' :: ext).length + 1)
          ('_' :: (c :: cs ++ '_' :: '_' :: ext)) = ext
      rw [duSubGo_head _ _ ext hcd, duSubGo_noDU _ ext hextnd]

theorem dedunder_plain (s : Name) (hh : s.head? ≠ some '_') :
    dedunder s = s := by
  cases s with
  | nil => rfl
  | cons c rest =>
      have hc : c ≠ '_' := by
        intro he
        subst he
        exact hh rfl
      have hdm : duMatch (c :: rest) = false := by
        show (decide (c = '_') && (completeDU rest).isSome) = false
        rw [decide_eq_false hc]
        rfl
      rw [dedunder, hdm, if_neg Bool.false_ne_true]

theorem dropWhile_underscore_ne (l : List Char) (h : l.head? ≠ some '_') :
    l.dropWhile (fun c => c = '_') = l := by
  cases l with
  | nil => rfl
  | cons c tt =>
      have hc : c ≠ '_' := by
        intro he
        subst he
        exact h rfl
      rw [List.dropWhile_cons, if_neg (by simp [hc])]

theorem stripUnderscores_dunder (ext : List Char)
    (hh : ext.head? ≠ some '_') (hl : ext.getLast? ≠ some '_') :
    stripUnderscores ('_' :: '_' :: ext) = ext := by
  have h2 : ('_' :: '_' :: ext).dropWhile (fun c => c = '_')
      = ext.dropWhile (fun c => c = '_') := rfl
  show ((('_' :: '_' :: ext).dropWhile (fun c => c = '_')).reverse.dropWhile
      (fun c => c = '_')).reverse = ext
  rw [h2, dropWhile_underscore_ne ext hh,
    dropWhile_underscore_ne ext.reverse
      (by rw [List.head?_reverse]; exact hl),
    List.reverse_reverse]

theorem discover_single (m : Name) :
    discoverNames [(m, true)] = [dedunder m] := by
  have hlk : lookupA [(m, true)] m = some true := by
    show (if m = m then some true else lookupA [] m) = some true
    rw [if_pos rfl]
  show ((sortNames [m]).filterMap _).map Prod.snd = [dedunder m]
  simp only [sortNames, insertName, List.filterMap_cons, List.filterMap_nil,
    hlk, List.map_cons, List.map_nil]

theorem setattrV_scalar_at (f : Nat) (cls : SchemaClass) (store : Store)
    (n ext : Name) (v : Value) (hde : dedunder n = ext)
    (hsc : ∀ fs, lookupA cls ext = some fs → isScalarField fs = true) :
    setattrVF (f + 2) cls store n v = .ok (setA store ext v) := by
  simp only [setattrVF, hde]
  cases hcl : lookupA cls ext with
  | none => simp only [hcl]; rfl
  | some fs =>
      simp only [hcl, coerceSet_scalar f fs v (hsc fs hcl), bind,
        Except.bind]
      rfl

theorem instanceGetattr_mangled (cls : SchemaClass) (store : Store)
    (m ext : Name) (fs : FieldSpec) (hde : dedunder m = ext)
    (hcm : lookupA cls m = Option.none) (hsm : lookupA store m = Option.none)
    (hce : lookupA cls ext = some fs) :
    instanceGetattrOpt cls store m = some (getattrF store ext fs) := by
  simp only [instanceGetattrOpt, hcm, hsm, hde, hce]

/-- C7: a field declared under the reserved-name escaping convention - the
    class-private form whose internal attribute name is the mangled
    underscore-classname-double-underscore-external spelling - resolves to
    the de-escaped external name everywhere: dedunder strips the privacy
    prefix, registration records exactly the external name, an attribute
    write through the mangled name stores under the external name, an
    attribute read through the mangled name reads the external field,
    initialization by the double-underscore keyword assigns the external
    field, and serialized output keys come only from the external names. -/
theorem c7_escaped_names_resolve (clsname ext : Name)
    (hne : clsname ≠ [])
    (hlastc : clsname.getLast? ≠ some '_')
    (hclsnd : hasDU clsname = false)
    (hextnd : hasDU ext = false)
    (hh : ext.head? ≠ some '_')
    (hl : ext.getLast? ≠ some '_') :
    dedunder ('_' :: clsname ++ '_' :: '_' :: ext) = ext
    ∧ discoverNames [('_' :: clsname ++ '_' :: '_' :: ext, true)] = [ext]
    ∧ (∀ (f : Nat) (cls : SchemaClass) (store : Store) (v : Value),
        (∀ fs, lookupA cls ext = some fs → isScalarField fs = true) →
        setattrVF (f + 2) cls store ('_' :: clsname ++ '_' :: '_' :: ext) v
          = .ok (setA store ext v))
    ∧ (∀ (cls : SchemaClass) (store : Store) (fs : FieldSpec),
        lookupA cls ('_' :: clsname ++ '_' :: '_' :: ext) = Option.none →
        lookupA store ('_' :: clsname ++ '_' :: '_' :: ext) = Option.none →
        lookupA cls ext = some fs →
        instanceGetattrOpt cls store ('_' :: clsname ++ '_' :: '_' :: ext)
          = some (getattrF store ext fs))
    ∧ (∀ (f : Nat) (cls : SchemaClass) (store : Store) (v : Value),
        (lookupA cls ext).isSome = true →
        (∀ fs, lookupA cls ext = some fs → isScalarField fs = true) →
        applyKwargsF (f + 3) cls store [('_' :: '_' :: ext, v)]
          = .ok (setA store ext v))
    ∧ (∀ (fuel : Nat) (implicit : Bool) (fs0 : FieldSpec) (store : Store)
        (out : List (Name × Value)),
        serializeInstF fuel implicit [(ext, fs0)] store = .ok out →
        ∀ k w, (k, w) ∈ out → k = ext) := by
  have hded : dedunder ('_' :: clsname ++ '_' :: '_' :: ext) = ext :=
    dedunder_mangled clsname ext hne hlastc hclsnd hextnd
  refine ⟨hded, ?_, ?_, ?_, ?_, ?_⟩
  · exact (discover_single _).trans (by rw [hded])
  · intro f cls store v hsc
    exact setattrV_scalar_at f cls store _ ext v hded hsc
  · intro cls store fs hcm hsm hce
    exact instanceGetattr_mangled cls store _ ext fs hded hcm hsm hce
  · intro f cls store v hsome hsc
    have hsd : startsDU ('_' :: '_' :: ext) = true := rfl
    have hname : (if startsDU ('_' :: '_' :: ext) = true
        then stripUnderscores ('_' :: '_' :: ext)
        else '_' :: '_' :: ext) = ext := by
      rw [hsd, if_pos rfl, stripUnderscores_dunder ext hh hl]
    simp only [applyKwargsF, hname]
    rw [if_pos hsome,
      setattrV_scalar_at f cls store ext ext v (dedunder_plain ext hh) hsc]
    simp only [bind, Except.bind]
    rfl
  · intro fuel implicit fs0 store out hok k w hmw
    obtain ⟨fs, hfs⟩ :=
      serialize_keys_subset fuel implicit [(ext, fs0)] store out hok k w hmw
    rcases List.mem_cons.mp hfs with heq | hnil
    · exact congrArg Prod.fst heq
    · exact absurd hnil (List.not_mem_nil _)

/-- Witness for C7 at the spec example: the field declared as double
    underscore if inside class Fancy, carried internally as the mangled
    name, resolves to the external name if everywhere. -/
theorem c7_escaped_names_resolve_witness :
    dedunder ('_' :: nm "Fancy" ++ '_' :: '_' :: nm "if") = nm "if"
    ∧ discoverNames [('_' :: nm "Fancy" ++ '_' :: '_' :: nm "if", true)]
        = [nm "if"]
    ∧ (∀ (f : Nat) (cls : SchemaClass) (store : Store) (v : Value),
        (∀ fs, lookupA cls (nm "if") = some fs → isScalarField fs = true) →
        setattrVF (f + 2) cls store
            ('_' :: nm "Fancy" ++ '_' :: '_' :: nm "if") v
          = .ok (setA store (nm "if") v))
    ∧ (∀ (cls : SchemaClass) (store : Store) (fs : FieldSpec),
        lookupA cls ('_' :: nm "Fancy" ++ '_' :: '_' :: nm "if")
          = Option.none →
        lookupA store ('_' :: nm "Fancy" ++ '_' :: '_' :: nm "if")
          = Option.none →
        lookupA cls (nm "if") = some fs →
        instanceGetattrOpt cls store
            ('_' :: nm "Fancy" ++ '_' :: '_' :: nm "if")
          = some (getattrF store (nm "if") fs))
    ∧ (∀ (f : Nat) (cls : SchemaClass) (store : Store) (v : Value),
        (lookupA cls (nm "if")).isSome = true →
        (∀ fs, lookupA cls (nm "if") = some fs → isScalarField fs = true) →
        applyKwargsF (f + 3) cls store [('_' :: '_' :: nm "if", v)]
          = .ok (setA store (nm "if") v))
    ∧ (∀ (fuel : Nat) (implicit : Bool) (fs0 : FieldSpec) (store : Store)
        (out : List (Name × Value)),
        serializeInstF fuel implicit [(nm "if", fs0)] store = .ok out →
        ∀ k w, (k, w) ∈ out → k = nm "if") :=
  c7_escaped_names_resolve (nm "Fancy") (nm "if") (by decide) (by decide)
    (by decide) (by decide) (by decide) (by decide)

end BFH
